import Mathlib

/-!
Verification of the exception-modernization scripts of the `wangkanai/foundation`
repository (`src/modernize_comprehensive.py`, `src/modernize_exceptions.py`,
`src/quick_modernize.py`, `src/comprehensive_search.py`).

The scripts rewrite C# sources with Python regular expressions.  Every regular
expression they use is a sequence of literals, whitespace repetitions (`\s*`, `\s+`),
greedy word captures (`(\w+)`) and one back-reference (`\1`), so the matcher is
embedded here as a small backtracking engine over that token language, with the
same leftmost, greedy, non-overlapping semantics as Python's `re.findall`/`re.sub`.
Character classes are modelled on their ASCII fragment, which is what the matched
idioms consist of.
-/

namespace Modernize

/-- ASCII whitespace as matched by the regex class backslash-s: space, tab, newline,
carriage return, vertical tab, form feed. -/
def isSpaceCh (c : Char) : Bool :=
  c == ' ' || c == '\t' || c == '\n' || c == '\r' || c == '\x0b' || c == '\x0c'

/-- ASCII word characters as matched by the regex class backslash-w: letters, digits
and the underscore. -/
def isWordCh (c : Char) : Bool := c.isAlpha || c.isDigit || c == '_'

/-- Character comparison: with `ci` set (the `re.IGNORECASE` flag) characters are
compared lower-cased, otherwise exactly. -/
def chEq (ci : Bool) (a b : Char) : Bool :=
  if ci then a.toLower == b.toLower else a == b

/-- Tokens of the concrete regular expressions used by the scripts: a literal run,
a whitespace repetition with a minimum count (`ws 0` is `\s*`, `ws 1` is `\s+`),
a greedy word capture `(\w+)`, and the back-reference `\1`. -/
inductive Tok : Type
  | lit : List Char → Tok
  | ws : Nat → Tok
  | cap : Tok
  | ref : Tok
  deriving DecidableEq, Repr

/-- Strip the literal `l` from the front of `s`, comparing characters with `chEq ci`. -/
def stripLit (ci : Bool) : List Char → List Char → Option (List Char)
  | [], s => some s
  | _ :: _, [] => none
  | c :: l, d :: s => if chEq ci c d then stripLit ci l s else none

/-- Try alternatives in order and return the first success — the backtracking order
of a greedy repetition in Python's regex engine. -/
def tryCands (f : α → Option β) : List α → Option β
  | [] => none
  | x :: xs =>
    match f x with
    | some r => some r
    | none => tryCands f xs

/-- Remainders of `s` after consuming `i` whitespace characters, for `i` running from
the maximal whitespace run down to the minimum `m`: the candidates of a greedy
whitespace repetition, preferred order first. -/
def wsCands (m : Nat) (s : List Char) : List (List Char) :=
  (List.range ((s.takeWhile isSpaceCh).length + 1 - m)).map
    (fun k => s.drop ((s.takeWhile isSpaceCh).length - k))

/-- Splittings (captured word, remainder) offered by the greedy capture `(\w+)`,
longest capture first. -/
def capCands (s : List Char) : List (List Char × List Char) :=
  (List.range (s.takeWhile isWordCh).length).map
    (fun k => (s.take ((s.takeWhile isWordCh).length - k),
               s.drop ((s.takeWhile isWordCh).length - k)))

/-- Backtracking matcher of a token list against the front of `s`; `caps` accumulates
the captured groups in order.  Greedy repetitions try the longest consumption first;
the back-reference matches the text of the first captured group again, comparing with
`chEq ci` exactly as Python's engine does under `re.IGNORECASE`.  On success it
returns the remaining input after the match together with the captures, i.e. the
leftmost-greedy match that `re` would produce at this position. -/
def mt (ci : Bool) : List Tok → List Char → List (List Char) →
    Option (List Char × List (List Char))
  | [], s, caps => some (s, caps)
  | Tok.lit l :: ts, s, caps =>
    match stripLit ci l s with
    | some s1 => mt ci ts s1 caps
    | none => none
  | Tok.ws m :: ts, s, caps => tryCands (fun s1 => mt ci ts s1 caps) (wsCands m s)
  | Tok.cap :: ts, s, caps =>
    tryCands (fun pr => mt ci ts pr.2 (caps ++ [pr.1])) (capCands s)
  | Tok.ref :: ts, s, caps =>
    match stripLit ci (caps.headD []) s with
    | some s1 => mt ci ts s1 caps
    | none => none

/-- Shorthand for a literal token. -/
def L (s : String) : Tok := Tok.lit s.data

/-- Tokens of `if\s*\(\s*(\w+)\s*==\s*null\s*\)` — the `== null` condition. -/
def condEq : List Tok :=
  [L ("if"), Tok.ws 0, L ("("), Tok.ws 0, Tok.cap, Tok.ws 0, L ("=="), Tok.ws 0,
   L ("null"), Tok.ws 0, L (")")]

/-- Tokens of `if\s*\(\s*(\w+)\s+is\s+null\s*\)` — the `is null` condition of
patterns 4 and 5 of `modernize_comprehensive.py` and pattern 3 of
`quick_modernize.py`. -/
def condIs : List Tok :=
  [L ("if"), Tok.ws 0, L ("("), Tok.ws 0, Tok.cap, Tok.ws 1, L ("is"), Tok.ws 1,
   L ("null"), Tok.ws 0, L (")")]

/-- Tokens of the loose `if\s*\(\s*(\w+)\s*is\s*null\s*\)` condition of
`OLD_PATTERNS[1]` in `modernize_exceptions.py` (note `\s*`, not `\s+`, around `is`). -/
def condIsLoose : List Tok :=
  [L ("if"), Tok.ws 0, L ("("), Tok.ws 0, Tok.cap, Tok.ws 0, L ("is"), Tok.ws 0,
   L ("null"), Tok.ws 0, L (")")]

/-- Tokens of `throw\s+new\s+ArgumentNullException\s*\(\s*nameof\s*\(\s*\1\s*\)\s*\)\s*;`. -/
def throwNameof : List Tok :=
  [L ("throw"), Tok.ws 1, L ("new"), Tok.ws 1, L ("ArgumentNullException"), Tok.ws 0,
   L ("("), Tok.ws 0, L ("nameof"), Tok.ws 0, L ("("), Tok.ws 0, Tok.ref, Tok.ws 0,
   L (")"), Tok.ws 0, L (")"), Tok.ws 0, L (";")]

/-- Tokens of `throw\s+new\s+ArgumentNullException\s*\(\s*"(\w+)"\s*\)\s*;` — the
string-argument variant of pattern 6 in `modernize_comprehensive.py`; note that the
quoted name is a second, unconstrained capture, not a back-reference. -/
def throwQuoted : List Tok :=
  [L ("throw"), Tok.ws 1, L ("new"), Tok.ws 1, L ("ArgumentNullException"), Tok.ws 0,
   L ("("), Tok.ws 0, L ("\""), Tok.cap, L ("\""), Tok.ws 0, L (")"), Tok.ws 0, L (";")]

/-- Tokens of the separator `\s*\n\s*` required by the multi-line patterns. -/
def nlSep : List Tok := [Tok.ws 0, L ("\n"), Tok.ws 0]

/-- Opening-brace and closing-brace literal tokens used by the braced patterns. -/
def braceOpen : Tok := L ("\x7b")

/-- Closing-brace literal token. -/
def braceClose : Tok := L ("\x7d")

/-- One of the concrete rewrite rules: the `re.IGNORECASE` flag and the token list of
its regular expression.  Every rule of the repository shares the single replacement
template `ArgumentNullException.ThrowIfNull(\1);`. -/
structure Pat where
  ci : Bool
  toks : List Tok
  deriving DecidableEq

/-- Pattern 1 of `modernize_comprehensive.py` (lines 37–45): basic single-line
if-null-throw, `re.IGNORECASE`. -/
def pattern1 : Pat := ⟨true, condEq ++ [Tok.ws 0] ++ throwNameof⟩

/-- Pattern 2 (lines 47–55): multi-line if-null-throw. -/
def pattern2 : Pat := ⟨true, condEq ++ nlSep ++ throwNameof⟩

/-- Pattern 3 (lines 57–65): braced if-null-throw. -/
def pattern3 : Pat :=
  ⟨true, condEq ++ [Tok.ws 0, braceOpen] ++ nlSep ++ throwNameof ++ nlSep ++ [braceClose]⟩

/-- Pattern 4 (lines 67–75): single-line `is null` variant. -/
def pattern4 : Pat := ⟨true, condIs ++ [Tok.ws 0] ++ throwNameof⟩

/-- Pattern 5 (lines 77–85): multi-line `is null` variant. -/
def pattern5 : Pat := ⟨true, condIs ++ nlSep ++ throwNameof⟩

/-- Pattern 6 (lines 87–95): string-parameter variant. -/
def pattern6 : Pat := ⟨true, condEq ++ [Tok.ws 0] ++ throwQuoted⟩

/-- The six patterns of `ExceptionModernizer.modernize_patterns`, in application order. -/
def comprehensivePats : List Pat :=
  [pattern1, pattern2, pattern3, pattern4, pattern5, pattern6]

/-- The four pattern/replacement pairs of `OLD_PATTERNS` in `modernize_exceptions.py`
(lines 13–29), in order: multi-line `== null`, multi-line loose `is null`, one-line
`== null`, braced.  They are compiled with `re.MULTILINE | re.DOTALL` but without
`re.IGNORECASE`, and contain no `.`, `^` or `$`, so only case-sensitivity differs. -/
def OLD_PATTERNS : List Pat :=
  [⟨false, condEq ++ nlSep ++ throwNameof⟩,
   ⟨false, condIsLoose ++ nlSep ++ throwNameof⟩,
   ⟨false, condEq ++ [Tok.ws 0] ++ throwNameof⟩,
   ⟨false, condEq ++ [Tok.ws 0, braceOpen] ++ nlSep ++ throwNameof ++ nlSep ++ [braceClose]⟩]

/-- The three patterns of `quick_modernize.modernize_exceptions` (lines 32–51), all
with `re.IGNORECASE`: one-line, multi-line, one-line `is null`. -/
def quickPats : List Pat := [pattern1, pattern2, pattern4]

/-- The canonical replacement `ArgumentNullException.ThrowIfNull(\1);` instantiated
with the first captured group — the single replacement template every rule uses. -/
def replFor (caps : List (List Char)) : List Char :=
  ("ArgumentNullException.ThrowIfNull(").data ++ caps.headD [] ++ (");").data

/-- A fragment of the rewritten buffer: either one character copied unchanged from
the input, or one match (with its original text and captures) replaced by the
canonical replacement. -/
inductive Piece : Type
  | ch : Char → Piece
  | rep : List Char → List (List Char) → Piece

/-- One left-to-right scan of `s` with pattern `p`, replacing non-overlapping matches
leftmost-first and continuing after each match, exactly as `re.findall` and `re.sub`
traverse a string.  `fuel` serves termination only; the callers pass `fuel = s.length`,
which suffices because every pattern starts with the literal `if` and hence every
match consumes at least one character (the guard below is therefore never false). -/
def scanP (p : Pat) : Nat → List Char → List Piece
  | 0, s => s.map Piece.ch
  | _ + 1, [] => []
  | f + 1, c :: s =>
    match mt p.ci p.toks (c :: s) [] with
    | some (rest, caps) =>
      if rest.length < s.length + 1 then
        Piece.rep ((c :: s).take (s.length + 1 - rest.length)) caps :: scanP p f rest
      else
        Piece.ch c :: scanP p f s
    | none => Piece.ch c :: scanP p f s

/-- The rewritten text of a scan. -/
def outP : List Piece → List Char
  | [] => []
  | Piece.ch c :: ps => c :: outP ps
  | Piece.rep _ caps :: ps => replFor caps ++ outP ps

/-- The original text of a scan (copied characters and matched spans, in order). -/
def inP : List Piece → List Char
  | [] => []
  | Piece.ch c :: ps => c :: inP ps
  | Piece.rep o _ :: ps => o ++ inP ps

/-- The number of replacements of a scan (= `len(pattern.findall(content))` =
the number of substitutions `pattern.sub` performs, both being the same scan). -/
def countP : List Piece → Nat
  | [] => 0
  | Piece.ch _ :: ps => countP ps
  | Piece.rep _ _ :: ps => countP ps + 1

/-- Apply one pattern the way each script does: `matches = findall(...)`, and only
if there are matches, `content = sub(...)` and `replacements += len(matches)`. -/
def applyPat (p : Pat) (s : List Char) : List Char × Nat :=
  let ps := scanP p s.length s
  if countP ps = 0 then (s, 0) else (outP ps, countP ps)

/-- Apply a list of patterns in order, accumulating the replacement count — the shared
loop shape of `modernize_patterns`, `modernize_file` and `quick_modernize`. -/
def foldPats : List Pat → List Char → List Char × Nat
  | [], s => (s, 0)
  | p :: ps, s =>
    let r1 := applyPat p s
    let r2 := foldPats ps r1.1
    (r2.1, r1.2 + r2.2)

/-- Shallow embedding of `ExceptionModernizer.modernize_patterns`
(`src/modernize_comprehensive.py` lines 32–97): the six patterns applied in order;
the `filePath` argument is unused, as in the source. -/
def modernize_patterns (content : String) (filePath : String) : String × Nat :=
  let r := foldPats comprehensivePats content.data
  (String.mk r.1, r.2)

/-- The pure rewriting core of `modernize_file` (`src/modernize_exceptions.py`
lines 50–58): `OLD_PATTERNS` applied in order to the file content. -/
def modernizeFileContent (content : String) : String × Nat :=
  let r := foldPats OLD_PATTERNS content.data
  (String.mk r.1, r.2)

/-- The pure rewriting core of `modernize_exceptions` in `quick_modernize.py`
(lines 24–61): its three patterns applied in order. -/
def quickContent (content : String) : String × Nat :=
  let r := foldPats quickPats content.data
  (String.mk r.1, r.2)

/-- Filesystem operations the scripts perform when writing a file back: Python's
`open(path, 'w')` truncates the file in place, and `f.write(data)` then appends the
data.  Neither script creates a temporary file or renames anything. -/
inductive FsOp : Type
  | truncate : String → FsOp
  | write : String → String → FsOp
  deriving DecidableEq

/-- Filesystem state: the content stored at each path. -/
def FsState : Type := String → String

/-- Effect of one filesystem operation. -/
def applyOp (fs : FsState) : FsOp → FsState
  | FsOp.truncate p => fun q => if q = p then "" else fs q
  | FsOp.write p d => fun q => if q = p then fs q ++ d else fs q

/-- Effect of a sequence of filesystem operations, in order.  Running only a proper
prefix of a sequence models a crash or failure part-way through. -/
def runOps : FsState → List FsOp → FsState
  | fs, [] => fs
  | fs, op :: ops => runOps (applyOp fs op) ops

/-- The write-back sequence of `ExceptionModernizer.process_file`
(`src/modernize_comprehensive.py` lines 116–119) and of `modernize_file`
(`src/modernize_exceptions.py` lines 60–63): a truncating open of the original path
followed by the write of the new content — a direct in-place rewrite. -/
def writeBackOps (path newContent : String) : List FsOp :=
  [FsOp.truncate path, FsOp.write path newContent]

/-- Observable result of `ExceptionModernizer.process_file` (lines 99–127) on a file
whose read succeeds: the increments of the three counters, the entry recorded in
`changes_by_file`, the filesystem operations performed, and the returned boolean. -/
structure ProcResult where
  processedInc : Nat
  changedInc : Nat
  replInc : Nat
  recorded : Option Nat
  writes : List FsOp
  returned : Bool
  deriving DecidableEq

/-- Shallow embedding of `ExceptionModernizer.process_file` for a file whose read
succeeds: apply `modernize_patterns`; always count the file as processed; when at
least one replacement was made, record the file as changed with its count and,
unless `dry_run` is set, write the new content back in place. -/
def process_file (dryRun : Bool) (path content : String) : ProcResult :=
  let r := modernize_patterns content path
  if r.2 > 0 then
    { processedInc := 1, changedInc := 1, replInc := r.2, recorded := some r.2,
      writes := if dryRun then [] else writeBackOps path r.1, returned := true }
  else
    { processedInc := 1, changedInc := 0, replInc := 0, recorded := none,
      writes := [], returned := false }

/-- All filesystem operations of one `ExceptionModernizer.run`
(lines 129–146) over the files of the tree, in order. -/
def runWrites (dryRun : Bool) (files : List (String × String)) : List FsOp :=
  (files.map (fun f => (process_file dryRun f.1 f.2).writes)).flatten

/-- Result of `modernize_file` in `modernize_exceptions.py` (lines 44–69) on one
file: the returned `(changed, replacements)` pair together with the write
operations performed.  The whole body runs under `try`; a file whose read raises
is handled by the `except` clause, which prints the error and returns `(False, 0)`,
so no exception escapes to the caller. -/
def modernize_file (path : String) (input : Except String String) :
    (Bool × Nat) × List FsOp :=
  match input with
  | Except.error _ => ((false, 0), [])
  | Except.ok content =>
    let r := modernizeFileContent content
    if r.2 > 0 then ((true, r.2), writeBackOps path r.1)
    else ((false, 0), [])

/-- The final report of one run of `main` in `modernize_exceptions.py`
(lines 71–97), plus the process exit code. -/
structure MainReport where
  filesProcessed : Nat
  filesChanged : Nat
  totalReplacements : Nat
  exitCode : Nat
  deriving DecidableEq

/-- Shallow embedding of `main` in `modernize_exceptions.py` (lines 71–97): every
file is processed in turn — a failed file only prints an error inside
`modernize_file` and contributes nothing to the counters — and the summary is
printed.  The script never calls `sys.exit` and `main` swallows all per-file
exceptions, so the interpreter exits with code 0 on every run, whether or not
read/write errors occurred. -/
def mainRun (files : List (String × Except String String)) : MainReport :=
  let step := fun (acc : Nat × Nat) (f : String × Except String String) =>
    let r := modernize_file f.1 f.2
    if r.1.1 then (acc.1 + 1, acc.2 + r.1.2) else acc
  let acc := files.foldl step (0, 0)
  { filesProcessed := files.length, filesChanged := acc.1,
    totalReplacements := acc.2, exitCode := 0 }

/-- Number of files of a run whose read failed. -/
def errorCount (files : List (String × Except String String)) : Nat :=
  (files.filter (fun f => match f.2 with | Except.error _ => true | _ => false)).length

/-- Lower bound on the number of characters a token list must consume, not counting
captured groups: the literal lengths plus the minimum whitespace counts. -/
def litWs : List Tok → Nat
  | [] => 0
  | Tok.lit l :: ts => l.length + litWs ts
  | Tok.ws m :: ts => m + litWs ts
  | Tok.cap :: ts => litWs ts
  | Tok.ref :: ts => litWs ts

/-- Total length of a list of captured groups. -/
def sumLens : List (List Char) → Nat
  | [] => 0
  | c :: cs => c.length + sumLens cs

/-- Invariant of every piece a scan with pattern `p` can produce: a replaced span is
non-empty and at least as long as the pattern's literal weight plus its captures. -/
def pieceOk (p : Pat) : Piece → Prop
  | Piece.ch _ => True
  | Piece.rep o caps => litWs p.toks + sumLens caps ≤ o.length ∧ o ≠ []

/-- The source side of an order-preserving decomposition: each segment contributes
its replaced span followed by its untouched block, so the original content is
`m₁ ++ b₁ ++ m₂ ++ b₂ ++ …` (after a leading untouched block). -/
def flatMB : List (List Char × List Char × List Char) → List Char
  | [] => []
  | t :: rest => t.1 ++ t.2.2 ++ flatMB rest

/-- The output side of an order-preserving decomposition: each segment contributes
its replacement text followed by the same untouched block, so the output is
`r₁ ++ b₁ ++ r₂ ++ b₂ ++ …` with the blocks `bᵢ` shared verbatim with the source
side, in the same order. -/
def flatRB : List (List Char × List Char × List Char) → List Char
  | [] => []
  | t :: rest => t.2.1 ++ t.2.2 ++ flatRB rest

/-- Case-aware equality of a literal `l` with a piece of matched text `cs`:
character-wise `chEq`, so under `re.IGNORECASE` (`ci = true`) the texts agree up to
letter case, and otherwise exactly. -/
def ciEqL (ci : Bool) : List Char → List Char → Prop
  | [], [] => True
  | c :: l, d :: s => chEq ci c d = true ∧ ciEqL ci l s
  | _ :: _, [] => False
  | [], _ :: _ => False

/-- Nondeterministic specification of the token matcher: `NdM ci ts consumed caps caps1`
holds when the token list `ts` can match exactly the text `consumed`, extending the
incoming capture list `caps` to `caps1`.  Unlike the deterministic `mt`, repetitions
may take any admissible count; `mt` succeeds on `consumed ++ rest` exactly when some
derivation exists (soundness and completeness below). -/
inductive NdM (ci : Bool) : List Tok → List Char → List (List Char) → List (List Char) → Prop
  | nil (caps : List (List Char)) : NdM ci [] [] caps caps
  | lit (l cs : List Char) {ts : List Tok} {c2 : List Char} {caps caps1 : List (List Char)} :
      ciEqL ci l cs → NdM ci ts c2 caps caps1 →
      NdM ci (Tok.lit l :: ts) (cs ++ c2) caps caps1
  | ws (m : Nat) (cs : List Char) {ts : List Tok} {c2 : List Char} {caps caps1 : List (List Char)} :
      (∀ c ∈ cs, isSpaceCh c) → m ≤ cs.length → NdM ci ts c2 caps caps1 →
      NdM ci (Tok.ws m :: ts) (cs ++ c2) caps caps1
  | cap (cs : List Char) {ts : List Tok} {c2 : List Char} {caps caps1 : List (List Char)} :
      cs ≠ [] → (∀ c ∈ cs, isWordCh c) → NdM ci ts c2 (caps ++ [cs]) caps1 →
      NdM ci (Tok.cap :: ts) (cs ++ c2) caps caps1
  | ref (cs : List Char) {ts : List Tok} {c2 : List Char} {caps caps1 : List (List Char)} :
      ciEqL ci (caps.headD []) cs → NdM ci ts c2 caps caps1 →
      NdM ci (Tok.ref :: ts) (cs ++ c2) caps caps1

/-- `MatchHere p c`: pattern `p` can match exactly the text `c`, starting with no
captures — i.e. `c` is a complete match of `p`. -/
def MatchHere (p : Pat) (c : List Char) : Prop :=
  ∃ caps1, NdM p.ci p.toks c [] caps1

/-- No substring of `t` is a complete match of `p`.  By completeness this is
equivalent to the scan of `p` finding nothing anywhere in `t`. -/
def NoSub (p : Pat) (t : List Char) : Prop :=
  ∀ u c r, t = u ++ c ++ r → ¬ MatchHere p c

/-- All captured groups are non-empty word strings — the invariant of every capture
the patterns can produce. -/
def CapsWord (caps : List (List Char)) : Prop :=
  ∀ cs ∈ caps, cs ≠ [] ∧ ∀ c ∈ cs, isWordCh c

/-- The fixed text of the canonical replacement left of the identifier. -/
def replA : List Char := ("ArgumentNullException.ThrowIfNull(").data

/-- The fixed text of the canonical replacement right of the identifier. -/
def replB : List Char := ((");")).data

/-- The literal texts occurring in the patterns of the repository. -/
def LITS : List (List Char) :=
  [("if").data, ("(").data, ("==").data, ("null").data, ((")")).data, ("throw").data,
   ("new").data, ("ArgumentNullException").data, ("nameof").data, ((";")).data,
   ("\n").data, ("\x7b").data, ("\x7d").data, ("\"").data, ("is").data]

/-- Follower constraints used by the boundary analysis: every literal is from `LITS`;
the literal `ArgumentNullException` is followed by `\s*\(`; a capture is followed by
`\s*==`, by `\s+is`/`\s*is`, or by a closing quote; the back-reference is followed by
`\s*\)\s*\)\s*;`. -/
def wfTail : Tok → List Tok → Bool
  | Tok.lit l, ts =>
    decide (l ∈ LITS) &&
      (decide (l ≠ ("ArgumentNullException").data) ||
        (match ts with
         | Tok.ws 0 :: Tok.lit l2 :: _ => decide (l2 = ("(").data)
         | _ => false))
  | Tok.ws _, _ => true
  | Tok.cap, ts =>
    (match ts with
     | Tok.ws _ :: Tok.lit l2 :: _ => decide (l2 = ("==").data) || decide (l2 = ("is").data)
     | Tok.lit l2 :: _ => decide (l2 = ("\"").data)
     | _ => false)
  | Tok.ref, ts =>
    (match ts with
     | Tok.ws 0 :: Tok.lit l1 :: Tok.ws 0 :: Tok.lit l2 :: Tok.ws 0 :: Tok.lit l3 :: _ =>
       decide (l1 = ((")")).data) && decide (l2 = ((")")).data) && decide (l3 = ((";")).data)
     | _ => false)

/-- A token list every suffix of which satisfies the follower constraints. -/
def wfToks : List Tok → Bool
  | [] => true
  | t :: ts => wfTail t ts && wfToks ts

/-- A well-formed pattern: well-formed token list beginning with `if\s*\(`. -/
def wfPat (p : Pat) : Prop :=
  wfToks p.toks = true ∧
    ∃ ts, p.toks = Tok.lit (("if").data) :: Tok.ws 0 :: Tok.lit (("(").data) :: ts

/-- Flatten an alternation of canonical replacements and residual blocks:
`flatSR [(v₁,b₁), …]` is `ArgumentNullException.ThrowIfNull(v₁); ++ b₁ ++ …`. -/
def flatSR : List (List Char × List Char) → List Char
  | [] => []
  | pr :: rest => (replA ++ pr.1 ++ replB) ++ pr.2 ++ flatSR rest

/-- Read the alternation structure off a scan's piece list: the leading copied block
and, for every replacement, its identifier and the copied block that follows it. -/
def pieceSR : List Piece → List Char × List (List Char × List Char)
  | [] => ([], [])
  | Piece.ch c :: ps => ((c :: (pieceSR ps).1), (pieceSR ps).2)
  | Piece.rep _ caps :: ps => ([], ((caps.headD [], (pieceSR ps).1) :: (pieceSR ps).2))

/-- Invariant carried through the pattern fold: the buffer is an alternation of
canonical replacements (with word-string identifiers) and residual blocks none of
whose substrings is a match of any pattern in `P`. -/
def Str (P : List Pat) (t : List Char) : Prop :=
  ∃ b0 sr, t = b0 ++ flatSR sr ∧
    (∀ pr ∈ sr, ∀ a ∈ pr.1, isWordCh a = true) ∧
    ∀ p ∈ P, NoSub p b0 ∧ ∀ pr ∈ sr, NoSub p pr.2

/-- The properties shared by every pattern of the three scripts: well-formed tokens
starting with `if\s*\(` and literal weight at least 37. -/
def famPat (p : Pat) : Prop := wfPat p ∧ 37 ≤ litWs p.toks

/-- The snapshot rewriting algorithm, defined from the specification's words (not
from the source): the output is obtained from the original content in one
left-to-right pass that copies characters and, at a non-overlapping set of spans
each of which is a match of one of the rules **against the original content**,
substitutes the canonical replacement built from that span's captures.  By
construction every matched span is text of the original input, so no rule is
triggered by text introduced by another rule's replacement. -/
inductive Snap (F : List Pat) : List Char → List Char → Prop
  | nil : Snap F [] []
  | copy (x : Char) {a b : List Char} : Snap F a b → Snap F (x :: a) (x :: b)
  | subst (p : Pat) (m : List Char) (caps : List (List Char)) {a b : List Char} :
      p ∈ F → NdM p.ci p.toks m [] caps → Snap F a b →
      Snap F (m ++ a) (replFor caps ++ b)

/-- Every replaced span of a decomposition is a genuine match of one of the rules
on the original text, and its replacement is the canonical text built from that
match's captures.  The spans are therefore not arbitrary: on a content in which no
rule matches, a decomposition with these side conditions forces output = input. -/
def SpansMatched (F : List Pat)
    (segs : List (List Char × List Char × List Char)) : Prop :=
  ∀ t ∈ segs, ∃ p ∈ F, ∃ caps, NdM p.ci p.toks t.1 [] caps ∧ t.2.1 = replFor caps


/-- A successful literal strip splits the input into a consumed part of the literal's
length and the remainder. -/
theorem stripLit_spec {ci : Bool} : ∀ {l s s1 : List Char}, stripLit ci l s = some s1 →
    ∃ t, s = t ++ s1 ∧ t.length = l.length := by
  intro l
  induction l with
  | nil =>
    intro s s1 h
    simp only [stripLit, Option.some.injEq] at h
    exact ⟨[], by simp [h], rfl⟩
  | cons c l ih =>
    intro s s1 h
    cases s with
    | nil => simp [stripLit] at h
    | cons d s =>
      simp only [stripLit] at h
      split at h
      · obtain ⟨t, ht, hlen⟩ := ih h
        exact ⟨d :: t, by simp [ht], by simp [hlen]⟩
      · exact absurd h (by simp)

/-- If trying a list of candidates succeeds, some candidate succeeds. -/
theorem tryCands_spec {f : α → Option β} : ∀ {xs : List α} {r : β},
    tryCands f xs = some r → ∃ x ∈ xs, f x = some r := by
  intro xs
  induction xs with
  | nil => intro r h; simp [tryCands] at h
  | cons x xs ih =>
    intro r h
    simp only [tryCands] at h
    cases hfx : f x with
    | some b => rw [hfx] at h; exact ⟨x, by simp, by simp [hfx, ← h]⟩
    | none =>
      rw [hfx] at h
      obtain ⟨y, hy, hfy⟩ := ih h
      exact ⟨y, by simp [hy], hfy⟩

/-- Characters of an initial segment of `l` within its `takeWhile pr` run satisfy `pr`. -/
theorem take_takeWhile_subset (pr : Char → Bool) (l : List Char) (j : Nat)
    (hj : j ≤ (l.takeWhile pr).length) : ∀ c ∈ l.take j, pr c := by
  intro c hc
  have h2 : l = l.takeWhile pr ++ l.dropWhile pr :=
    (List.takeWhile_append_dropWhile pr l).symm
  have h1 : l.take j = (l.takeWhile pr).take j := by
    calc l.take j = (l.takeWhile pr ++ l.dropWhile pr).take j := by rw [← h2]
    _ = (l.takeWhile pr).take j ++
        (l.dropWhile pr).take (j - (l.takeWhile pr).length) :=
      List.take_append_eq_append_take
    _ = (l.takeWhile pr).take j := by
      rw [Nat.sub_eq_zero_of_le hj, List.take_zero, List.append_nil]
  rw [h1] at hc
  exact List.mem_takeWhile_imp (List.take_subset _ _ hc)

/-- Every whitespace candidate drops a run of at least `m` whitespace characters. -/
theorem wsCands_spec {m : Nat} {s s1 : List Char} (h : s1 ∈ wsCands m s) :
    ∃ t, s = t ++ s1 ∧ m ≤ t.length ∧ ∀ c ∈ t, isSpaceCh c := by
  simp only [wsCands, List.mem_map, List.mem_range] at h
  obtain ⟨k, hk, rfl⟩ := h
  have hr : (s.takeWhile isSpaceCh).length ≤ s.length :=
    (List.takeWhile_sublist _).length_le
  refine ⟨s.take ((s.takeWhile isSpaceCh).length - k), (List.take_append_drop _ s).symm,
    ?_, ?_⟩
  · rw [List.length_take]; omega
  · exact take_takeWhile_subset isSpaceCh s _ (by omega)

/-- Every capture candidate splits off a non-empty word prefix. -/
theorem capCands_spec {s w s1 : List Char} (h : (w, s1) ∈ capCands s) :
    s = w ++ s1 ∧ w ≠ [] ∧ ∀ c ∈ w, isWordCh c := by
  simp only [capCands, List.mem_map, List.mem_range] at h
  obtain ⟨k, hk, heq⟩ := h
  have hw : w = s.take ((s.takeWhile isWordCh).length - k) := by
    have := congrArg Prod.fst heq; simpa using this.symm
  have hs1 : s1 = s.drop ((s.takeWhile isWordCh).length - k) := by
    have := congrArg Prod.snd heq; simpa using this.symm
  have hr : (s.takeWhile isWordCh).length ≤ s.length :=
    (List.takeWhile_sublist _).length_le
  refine ⟨by rw [hw, hs1]; exact (List.take_append_drop _ s).symm, ?_, ?_⟩
  · rw [hw]
    have hpos : 0 < (s.take ((s.takeWhile isWordCh).length - k)).length := by
      rw [List.length_take]
      omega
    exact List.ne_nil_of_length_pos hpos
  · rw [hw]
    exact take_takeWhile_subset isWordCh s _ (by omega)

/-- Sum of group lengths distributes over append. -/
theorem sumLens_append (a b : List (List Char)) :
    sumLens (a ++ b) = sumLens a + sumLens b := by
  induction a with
  | nil => simp [sumLens]
  | cons x xs ih =>
    show sumLens (x :: (xs ++ b)) = sumLens (x :: xs) + sumLens b
    simp only [sumLens, ih]
    omega

/-- The head group is no longer than the total of all groups. -/
theorem sumLens_headD (cs : List (List Char)) : (cs.headD []).length ≤ sumLens cs := by
  cases cs with
  | nil => simp [sumLens]
  | cons c cs => simp [sumLens]

/-- Specification of a successful match: the captures are appended to the incoming
ones, the remainder is a suffix, and the consumed text is at least as long as the
token list's literal weight plus the total length of the new captures. -/
theorem mt_spec {ci : Bool} : ∀ {ts : List Tok} {s caps rest caps1},
    mt ci ts s caps = some (rest, caps1) →
    ∃ new consumed, caps1 = caps ++ new ∧ s = consumed ++ rest ∧
      litWs ts + sumLens new ≤ consumed.length := by
  intro ts
  induction ts with
  | nil =>
    intro s caps rest caps1 h
    simp only [mt, Option.some.injEq, Prod.mk.injEq] at h
    exact ⟨[], [], by simp [← h.2], by simp [← h.1], by simp [litWs, sumLens]⟩
  | cons t ts ih =>
    intro s caps rest caps1 h
    cases t with
    | lit l =>
      simp only [mt] at h
      cases hsl : stripLit ci l s with
      | none => rw [hsl] at h; simp at h
      | some s1 =>
        rw [hsl] at h
        obtain ⟨new, con1, hc, hs1, hb⟩ := ih h
        obtain ⟨t0, hst, hlen⟩ := stripLit_spec hsl
        refine ⟨new, t0 ++ con1, hc, by rw [hst, hs1, List.append_assoc], ?_⟩
        simp only [litWs, List.length_append]
        omega
    | ws m =>
      simp only [mt] at h
      obtain ⟨s1, hmem, hs1⟩ := tryCands_spec h
      obtain ⟨new, con1, hc, hcon, hb⟩ := ih hs1
      obtain ⟨t0, hst, hm, _⟩ := wsCands_spec hmem
      refine ⟨new, t0 ++ con1, hc, by rw [hst, hcon, List.append_assoc], ?_⟩
      simp only [litWs, List.length_append]
      omega
    | cap =>
      simp only [mt] at h
      obtain ⟨pr, hmem, hpr⟩ := tryCands_spec h
      obtain ⟨hsplit, hne, _⟩ := @capCands_spec _ pr.1 pr.2 (by simpa using hmem)
      obtain ⟨new1, con1, hc, hcon, hb⟩ := ih hpr
      refine ⟨pr.1 :: new1, pr.1 ++ con1, ?_, by rw [hsplit, hcon, List.append_assoc], ?_⟩
      · rw [hc, List.append_assoc]; rfl
      · simp only [litWs, sumLens, List.length_append]
        omega
    | ref =>
      simp only [mt] at h
      cases hsl : stripLit ci (caps.headD []) s with
      | none => rw [hsl] at h; simp at h
      | some s1 =>
        rw [hsl] at h
        obtain ⟨new, con1, hc, hs1, hb⟩ := ih h
        obtain ⟨t0, hst, _⟩ := stripLit_spec hsl
        refine ⟨new, t0 ++ con1, hc, by rw [hst, hs1, List.append_assoc], ?_⟩
        simp only [litWs, List.length_append]
        omega

/-- The length of the canonical replacement: 36 characters plus the first capture. -/
theorem replFor_length (caps : List (List Char)) :
    (replFor caps).length = (caps.headD []).length + 36 := by
  have h1 : ("ArgumentNullException.ThrowIfNull(").data.length = 34 := rfl
  have h2 : ((");")).data.length = 2 := rfl
  simp only [replFor, List.length_append, h1, h2]
  omega

/-- The original text of a fuel-exhausted scan. -/
theorem inP_map_ch : ∀ s : List Char, inP (s.map Piece.ch) = s := by
  intro s
  induction s with
  | nil => rfl
  | cons c cs ih => simp only [List.map_cons, inP, ih]

/-- The pieces of a scan carry exactly the original text, in order. -/
theorem inP_scanP (p : Pat) : ∀ (f : Nat) (s : List Char), inP (scanP p f s) = s := by
  intro f
  induction f with
  | zero => intro s; simp only [scanP, inP_map_ch]
  | succ f ih =>
    intro s
    cases s with
    | nil => rfl
    | cons c cs =>
      simp only [scanP]
      cases hmt : mt p.ci p.toks (c :: cs) [] with
      | none => simp only [inP, ih cs]
      | some pr =>
        obtain ⟨rest, caps⟩ := pr
        by_cases hlt : rest.length < cs.length + 1
        · simp only [if_pos hlt, inP, ih rest]
          obtain ⟨new, consumed, _, hcons, _⟩ := mt_spec hmt
          have hn : cs.length + 1 - rest.length = consumed.length := by
            have := congrArg List.length hcons
            simp only [List.length_append, List.length_cons] at this
            omega
          rw [hn, hcons, List.take_left]
        · simp only [if_neg hlt, inP, ih cs]

/-- Every piece a scan produces satisfies the piece invariant. -/
theorem scanP_ok (p : Pat) : ∀ (f : Nat) (s : List Char) (x : Piece),
    x ∈ scanP p f s → pieceOk p x := by
  intro f
  induction f with
  | zero =>
    intro s x hx
    simp only [scanP, List.mem_map] at hx
    obtain ⟨c, _, rfl⟩ := hx
    trivial
  | succ f ih =>
    intro s x hx
    cases s with
    | nil => simp [scanP] at hx
    | cons c cs =>
      simp only [scanP] at hx
      cases hmt : mt p.ci p.toks (c :: cs) [] with
      | none =>
        rw [hmt] at hx
        simp only [List.mem_cons] at hx
        rcases hx with rfl | hx
        · trivial
        · exact ih cs x hx
      | some pr =>
        obtain ⟨rest, caps⟩ := pr
        rw [hmt] at hx
        by_cases hlt : rest.length < cs.length + 1
        · simp only [if_pos hlt, List.mem_cons] at hx
          rcases hx with rfl | hx
          · obtain ⟨new, consumed, hcaps, hcons, hb⟩ := mt_spec hmt
            simp only [List.nil_append] at hcaps
            subst hcaps
            have hn : cs.length + 1 - rest.length = consumed.length := by
              have := congrArg List.length hcons
              simp only [List.length_append, List.length_cons] at this
              omega
            constructor
            · rw [hn, hcons, List.take_left]
              simpa using hb
            · rw [hn, hcons, List.take_left]
              intro hnil
              rw [hnil] at hn
              simp at hn
              omega
          · exact ih rest x hx
        · simp only [if_neg hlt, List.mem_cons] at hx
          rcases hx with rfl | hx
          · trivial
          · exact ih cs x hx

/-- Each replacement shortens the buffer: the output of a scan plus its replacement
count is bounded by the input length, for every pattern of literal weight at least 37
(every pattern of the repository has literal weight at least 46). -/
theorem outP_le (p : Pat) (hp : 37 ≤ litWs p.toks) :
    ∀ ps : List Piece, (∀ x ∈ ps, pieceOk p x) →
      (outP ps).length + countP ps ≤ (inP ps).length := by
  intro ps
  induction ps with
  | nil => simp [outP, countP, inP]
  | cons x xs ih =>
    intro hok
    have hxs : ∀ y ∈ xs, pieceOk p y := fun y hy => hok y (by simp [hy])
    cases x with
    | ch c =>
      have := ih hxs
      simp only [outP, countP, inP, List.length_cons]
      omega
    | rep o caps =>
      have hx := hok (Piece.rep o caps) (by simp)
      have hO : litWs p.toks + sumLens caps ≤ o.length := hx.1
      have := ih hxs
      have hrepl := replFor_length caps
      have hsum := sumLens_headD caps
      simp only [outP, countP, inP, List.length_append]
      omega

/-- One pattern application either makes no replacement and returns the content
unchanged, or makes a positive number of replacements and strictly shortens it. -/
theorem applyPat_cases (p : Pat) (hp : 37 ≤ litWs p.toks) (s : List Char) :
    ((applyPat p s).2 = 0 ∧ (applyPat p s).1 = s) ∨
      (0 < (applyPat p s).2 ∧ (applyPat p s).1.length < s.length) := by
  unfold applyPat
  by_cases h : countP (scanP p s.length s) = 0
  · left
    simp [h]
  · right
    have h1 := outP_le p hp (scanP p s.length s) (fun x hx => scanP_ok p _ _ x hx)
    rw [inP_scanP] at h1
    simp only [if_neg h]
    omega

/-- A pattern fold either makes no replacement and returns the content unchanged, or
makes a positive number of replacements and strictly shortens it. -/
theorem foldPats_cases : ∀ (pats : List Pat), (∀ p ∈ pats, 37 ≤ litWs p.toks) →
    ∀ s : List Char,
    ((foldPats pats s).2 = 0 ∧ (foldPats pats s).1 = s) ∨
      (0 < (foldPats pats s).2 ∧ (foldPats pats s).1.length < s.length) := by
  intro pats
  induction pats with
  | nil =>
    intro _ s
    left
    exact ⟨rfl, rfl⟩
  | cons p ps ih =>
    intro hgood s
    have hp := hgood p (by simp)
    have hps : ∀ q ∈ ps, 37 ≤ litWs q.toks := fun q hq => hgood q (by simp [hq])
    simp only [foldPats]
    rcases applyPat_cases p hp s with ⟨h2, h1⟩ | ⟨h2, h1⟩
    · rw [h1]
      rcases ih hps s with ⟨g2, g1⟩ | ⟨g2, g1⟩
      · left
        exact ⟨by omega, g1⟩
      · right
        exact ⟨by omega, g1⟩
    · rcases ih hps (applyPat p s).1 with ⟨g2, g1⟩ | ⟨g2, g1⟩
      · right
        refine ⟨by omega, ?_⟩
        rw [g1]
        exact h1
      · right
        exact ⟨by omega, by omega⟩

/-- Every pattern of the three scripts has literal weight at least 37. -/
theorem allPats_good : ∀ p ∈ comprehensivePats ++ OLD_PATTERNS ++ quickPats,
    37 ≤ litWs p.toks := by decide

/-- Round trip of a valid code point through `Char.ofNat`. -/
theorem char_toNat_ofNat {n : Nat} (h : Char.isValidCharNat n) :
    (Char.ofNat n).toNat = n := by
  simp only [Char.ofNat, dif_pos h]
  simp only [Char.ofNatAux, Char.toNat, UInt32.ofNat']
  exact BitVec.toNat_ofNatLt _ _

/-- Word characters, by code point. -/
theorem isWordCh_iff (c : Char) : isWordCh c = true ↔
    (65 ≤ c.toNat ∧ c.toNat ≤ 90) ∨ (97 ≤ c.toNat ∧ c.toNat ≤ 122) ∨
    (48 ≤ c.toNat ∧ c.toNat ≤ 57) ∨ c.toNat = 95 := by
  simp only [isWordCh, Char.isAlpha, Char.isUpper, Char.isLower, Char.isDigit,
    Bool.or_eq_true, Bool.and_eq_true, beq_iff_eq, decide_eq_true_eq, ge_iff_le]
  constructor
  · intro h
    rcases h with (h | h) | h
    · rcases h with ⟨h1, h2⟩ | ⟨h1, h2⟩
      · exact Or.inl ⟨h1, h2⟩
      · exact Or.inr (Or.inl ⟨h1, h2⟩)
    · exact Or.inr (Or.inr (Or.inl ⟨h.1, h.2⟩))
    · subst h
      exact Or.inr (Or.inr (Or.inr rfl))
  · intro h
    rcases h with ⟨h1, h2⟩ | ⟨h1, h2⟩ | ⟨h1, h2⟩ | h
    · exact Or.inl (Or.inl (Or.inl ⟨h1, h2⟩))
    · exact Or.inl (Or.inl (Or.inr ⟨h1, h2⟩))
    · exact Or.inl (Or.inr ⟨h1, h2⟩)
    · refine Or.inr ?_
      exact Char.ext (UInt32.toNat.inj h)

/-- Whitespace characters, by code point. -/
theorem isSpaceCh_iff (c : Char) : isSpaceCh c = true ↔
    c.toNat = 32 ∨ c.toNat = 9 ∨ c.toNat = 10 ∨ c.toNat = 13 ∨ c.toNat = 11 ∨
    c.toNat = 12 := by
  simp only [isSpaceCh, Bool.or_eq_true, beq_iff_eq]
  constructor
  · intro h
    rcases h with ((((h | h) | h) | h) | h) | h <;> subst h <;> decide
  · intro h
    have hc : ∀ (d : Char), c.toNat = d.toNat → c = d := fun d hd =>
      Char.ext (UInt32.toNat.inj hd)
    rcases h with h | h | h | h | h | h
    · exact Or.inl (Or.inl (Or.inl (Or.inl (Or.inl (hc ' ' h)))))
    · exact Or.inl (Or.inl (Or.inl (Or.inl (Or.inr (hc '\t' h)))))
    · exact Or.inl (Or.inl (Or.inl (Or.inr (hc '\n' h))))
    · exact Or.inl (Or.inl (Or.inr (hc '\r' h)))
    · exact Or.inl (Or.inr (hc '\x0b' h))
    · exact Or.inr (hc '\x0c' h)

/-- Lower-casing does not change word-character status. -/
theorem isWordCh_toLower (c : Char) : isWordCh c.toLower = isWordCh c := by
  have hdef : c.toLower =
      if Char.toNat c ≥ 65 ∧ Char.toNat c ≤ 90 then Char.ofNat (Char.toNat c + 32)
      else c := rfl
  rw [hdef]
  split
  · next h =>
    have hv : Char.isValidCharNat (Char.toNat c + 32) := Or.inl (by omega)
    have ht := char_toNat_ofNat hv
    have h1 : isWordCh (Char.ofNat (Char.toNat c + 32)) = true := by
      rw [isWordCh_iff, ht]
      exact Or.inr (Or.inl ⟨by omega, by omega⟩)
    have h2 : isWordCh c = true := by
      rw [isWordCh_iff]
      exact Or.inl ⟨h.1, h.2⟩
    rw [h1, h2]
  · rfl

/-- A word character is never whitespace. -/
theorem word_not_space {c : Char} (h : isWordCh c = true) : isSpaceCh c = false := by
  by_contra hs
  rw [Bool.not_eq_false] at hs
  rw [isWordCh_iff] at h
  rw [isSpaceCh_iff] at hs
  omega

/-- `chEq` implies equality of lower-cased characters (for both flag values). -/
theorem chEq_toLower {ci : Bool} {a b : Char} (h : chEq ci a b = true) :
    a.toLower = b.toLower := by
  cases ci with
  | true =>
    simp only [chEq, if_true, beq_iff_eq] at h
    exact h
  | false =>
    simp only [chEq, Bool.false_eq_true, if_false, beq_iff_eq] at h
    rw [h]

/-- Characters equal up to case have the same word-character status. -/
theorem isWordCh_of_lowEq {a b : Char} (h : a.toLower = b.toLower) :
    isWordCh a = isWordCh b := by
  rw [← isWordCh_toLower a, ← isWordCh_toLower b, h]

/-- `ciEqL` texts have equal length. -/
theorem ciEqL_length {ci : Bool} : ∀ {l cs : List Char}, ciEqL ci l cs →
    l.length = cs.length := by
  intro l
  induction l with
  | nil =>
    intro cs h
    cases cs with
    | nil => rfl
    | cons d s => exact absurd h (by simp [ciEqL])
  | cons c l ih =>
    intro cs h
    cases cs with
    | nil => exact absurd h (by simp [ciEqL])
    | cons d s =>
      obtain ⟨_, h2⟩ := h
      simp only [List.length_cons, ih h2]

/-- `ciEqL` texts agree after lower-casing. -/
theorem ciEqL_low {ci : Bool} : ∀ {l cs : List Char}, ciEqL ci l cs →
    l.map Char.toLower = cs.map Char.toLower := by
  intro l
  induction l with
  | nil =>
    intro cs h
    cases cs with
    | nil => rfl
    | cons d s => exact absurd h (by simp [ciEqL])
  | cons c l ih =>
    intro cs h
    cases cs with
    | nil => exact absurd h (by simp [ciEqL])
    | cons d s =>
      obtain ⟨h1, h2⟩ := h
      simp only [List.map_cons, chEq_toLower h1, ih h2]

/-- Text `ciEqL` to a word string is itself a word string. -/
theorem ciEqL_word {ci : Bool} : ∀ {l cs : List Char}, ciEqL ci l cs →
    (∀ c ∈ l, isWordCh c) → ∀ c ∈ cs, isWordCh c := by
  intro l
  induction l with
  | nil =>
    intro cs h _
    cases cs with
    | nil => intro c hc; simp at hc
    | cons d s => exact absurd h (by simp [ciEqL])
  | cons c l ih =>
    intro cs h hw
    cases cs with
    | nil => exact absurd h (by simp [ciEqL])
    | cons d s =>
      obtain ⟨h1, h2⟩ := h
      intro e he
      rcases List.mem_cons.mp he with rfl | he
      · rw [← isWordCh_of_lowEq (chEq_toLower h1)]
        exact hw c (by simp)
      · exact ih h2 (fun x hx => hw x (by simp [hx])) e he

/-- A literal strips exactly its `ciEqL` image. -/
theorem stripLit_of_ciEqL {ci : Bool} : ∀ {l cs : List Char} (rest : List Char),
    ciEqL ci l cs → stripLit ci l (cs ++ rest) = some rest := by
  intro l
  induction l with
  | nil =>
    intro cs rest h
    cases cs with
    | nil => rfl
    | cons d s => exact absurd h (by simp [ciEqL])
  | cons c l ih =>
    intro cs rest h
    cases cs with
    | nil => exact absurd h (by simp [ciEqL])
    | cons d s =>
      obtain ⟨h1, h2⟩ := h
      simp only [List.cons_append, stripLit, if_pos h1]
      exact ih rest h2

/-- A successful strip yields a `ciEqL` split. -/
theorem stripLit_ciEqL {ci : Bool} : ∀ {l s s1 : List Char},
    stripLit ci l s = some s1 → ∃ cs, s = cs ++ s1 ∧ ciEqL ci l cs := by
  intro l
  induction l with
  | nil =>
    intro s s1 h
    simp only [stripLit, Option.some.injEq] at h
    exact ⟨[], by simp [h], trivial⟩
  | cons c l ih =>
    intro s s1 h
    cases s with
    | nil => simp [stripLit] at h
    | cons d s =>
      simp only [stripLit] at h
      split at h
      · obtain ⟨cs, hcs, he⟩ := ih h
        next h1 =>
          exact ⟨d :: cs, by simp [hcs], ⟨h1, he⟩⟩
      · exact absurd h (by simp)

/-- Soundness of the deterministic matcher with respect to the match relation. -/
theorem mt_sound {ci : Bool} : ∀ {ts : List Tok} {s caps rest caps1},
    mt ci ts s caps = some (rest, caps1) →
    ∃ consumed, s = consumed ++ rest ∧ NdM ci ts consumed caps caps1 := by
  intro ts
  induction ts with
  | nil =>
    intro s caps rest caps1 h
    simp only [mt, Option.some.injEq, Prod.mk.injEq] at h
    exact ⟨[], by simp [← h.1], h.2 ▸ NdM.nil caps⟩
  | cons t ts ih =>
    intro s caps rest caps1 h
    cases t with
    | lit l =>
      simp only [mt] at h
      cases hsl : stripLit ci l s with
      | none => rw [hsl] at h; simp at h
      | some s1 =>
        rw [hsl] at h
        obtain ⟨con1, hs1, hnd⟩ := ih h
        obtain ⟨cs, hcs, he⟩ := stripLit_ciEqL hsl
        exact ⟨cs ++ con1, by rw [hcs, hs1, List.append_assoc], NdM.lit l cs he hnd⟩
    | ws m =>
      simp only [mt] at h
      obtain ⟨s1, hmem, hs1⟩ := tryCands_spec h
      obtain ⟨con1, hcon, hnd⟩ := ih hs1
      obtain ⟨t0, hst, hm, hsp⟩ := wsCands_spec hmem
      exact ⟨t0 ++ con1, by rw [hst, hcon, List.append_assoc], NdM.ws m t0 hsp hm hnd⟩
    | cap =>
      simp only [mt] at h
      obtain ⟨pr, hmem, hpr⟩ := tryCands_spec h
      obtain ⟨hsplit, hne, hw⟩ := @capCands_spec _ pr.1 pr.2 (by simpa using hmem)
      obtain ⟨con1, hcon, hnd⟩ := ih hpr
      exact ⟨pr.1 ++ con1, by rw [hsplit, hcon, List.append_assoc],
        NdM.cap pr.1 hne hw hnd⟩
    | ref =>
      simp only [mt] at h
      cases hsl : stripLit ci (caps.headD []) s with
      | none => rw [hsl] at h; simp at h
      | some s1 =>
        rw [hsl] at h
        obtain ⟨con1, hs1, hnd⟩ := ih h
        obtain ⟨cs, hcs, he⟩ := stripLit_ciEqL hsl
        exact ⟨cs ++ con1, by rw [hcs, hs1, List.append_assoc], NdM.ref cs he hnd⟩

/-- If some listed candidate succeeds, trying the candidates succeeds. -/
theorem tryCands_isSome {f : α → Option β} : ∀ {xs : List α} {x : α}, x ∈ xs →
    (f x).isSome = true → (tryCands f xs).isSome = true := by
  intro xs
  induction xs with
  | nil => intro x hx; simp at hx
  | cons y ys ih =>
    intro x hx hfx
    rcases List.mem_cons.mp hx with rfl | hx
    · simp only [tryCands]
      cases hfy : f x with
      | none => rw [hfy] at hfx; simp at hfx
      | some b => simp
    · simp only [tryCands]
      cases hfy : f y with
      | none => exact ih hx hfx
      | some b => simp

/-- An all-whitespace prefix is no longer than the whitespace run. -/
theorem spaceRun_ge {cs rest : List Char} (hsp : ∀ c ∈ cs, isSpaceCh c) :
    cs.length ≤ ((cs ++ rest).takeWhile isSpaceCh).length := by
  induction cs with
  | nil => simp
  | cons c cs ih =>
    have hc : isSpaceCh c = true := hsp c (by simp)
    simp only [List.cons_append, List.takeWhile_cons, hc, if_true, List.length_cons]
    have := ih (fun x hx => hsp x (by simp [hx]))
    omega

/-- An all-word prefix is no longer than the word run. -/
theorem wordRun_ge {cs rest : List Char} (hw : ∀ c ∈ cs, isWordCh c) :
    cs.length ≤ ((cs ++ rest).takeWhile isWordCh).length := by
  induction cs with
  | nil => simp
  | cons c cs ih =>
    have hc : isWordCh c = true := hw c (by simp)
    simp only [List.cons_append, List.takeWhile_cons, hc, if_true, List.length_cons]
    have := ih (fun x hx => hw x (by simp [hx]))
    omega

/-- The remainder after an admissible whitespace run is among the candidates. -/
theorem mem_wsCands {m : Nat} {cs rest : List Char} (hsp : ∀ c ∈ cs, isSpaceCh c)
    (hm : m ≤ cs.length) : rest ∈ wsCands m (cs ++ rest) := by
  have hrun := @spaceRun_ge _ rest hsp
  simp only [wsCands, List.mem_map, List.mem_range]
  refine ⟨((cs ++ rest).takeWhile isSpaceCh).length - cs.length, by omega, ?_⟩
  have : ((cs ++ rest).takeWhile isSpaceCh).length -
      (((cs ++ rest).takeWhile isSpaceCh).length - cs.length) = cs.length := by omega
  rw [this, List.drop_left]

/-- An admissible capture split is among the candidates. -/
theorem mem_capCands {cs rest : List Char} (hne : cs ≠ [])
    (hw : ∀ c ∈ cs, isWordCh c) : (cs, rest) ∈ capCands (cs ++ rest) := by
  have hrun := @wordRun_ge _ rest hw
  have hlen : 0 < cs.length := List.length_pos.mpr hne
  simp only [capCands, List.mem_map, List.mem_range]
  refine ⟨((cs ++ rest).takeWhile isWordCh).length - cs.length, by omega, ?_⟩
  have : ((cs ++ rest).takeWhile isWordCh).length -
      (((cs ++ rest).takeWhile isWordCh).length - cs.length) = cs.length := by omega
  rw [this, List.take_left, List.drop_left]

/-- Completeness of the deterministic matcher: any derivable match makes `mt`
succeed on any extension of the matched text. -/
theorem mt_complete {ci : Bool} : ∀ {ts consumed caps caps1},
    NdM ci ts consumed caps caps1 →
    ∀ rest, (mt ci ts (consumed ++ rest) caps).isSome = true := by
  intro ts consumed caps caps1 h
  induction h with
  | nil caps => intro rest; simp [mt]
  | lit l cs he _ ih =>
    intro rest
    rw [List.append_assoc]
    simp only [mt, stripLit_of_ciEqL _ he]
    exact ih rest
  | ws m cs hsp hm _ ih =>
    intro rest
    rw [List.append_assoc]
    simp only [mt]
    exact tryCands_isSome (mem_wsCands hsp hm) (ih rest)
  | cap cs hne hw _ ih =>
    intro rest
    rw [List.append_assoc]
    simp only [mt]
    exact tryCands_isSome (mem_capCands hne hw) (ih rest)
  | ref cs he _ ih =>
    intro rest
    rw [List.append_assoc]
    simp only [mt, stripLit_of_ciEqL _ he]
    exact ih rest

/-- Lower bound on the text a derivable match consumes. -/
theorem ndm_len {ci : Bool} : ∀ {ts consumed caps caps1},
    NdM ci ts consumed caps caps1 → litWs ts ≤ consumed.length := by
  intro ts consumed caps caps1 h
  induction h with
  | nil caps => simp [litWs]
  | lit l cs he _ ih =>
    simp only [litWs, List.length_append, ciEqL_length he]
    omega
  | ws m cs _ hm _ ih =>
    simp only [litWs, List.length_append]
    omega
  | cap cs _ _ _ ih =>
    simp only [litWs, List.length_append]
    omega
  | ref cs _ _ ih =>
    simp only [litWs, List.length_append]
    omega

/-- Captures of a derivable match are non-empty word strings. -/
theorem ndm_caps {ci : Bool} : ∀ {ts consumed caps caps1},
    NdM ci ts consumed caps caps1 → CapsWord caps → CapsWord caps1 := by
  intro ts consumed caps caps1 h
  induction h with
  | nil caps => exact fun hc => hc
  | lit l cs _ _ ih => exact ih
  | ws m cs _ _ _ ih => exact ih
  | cap cs hne hw _ ih =>
    intro hc
    refine ih ?_
    intro x hx
    rcases List.mem_append.mp hx with hx | hx
    · exact hc x hx
    · rcases List.mem_singleton.mp hx with rfl
      exact ⟨hne, hw⟩
  | ref cs _ _ ih => exact ih

/-- A character whose lower case is a non-letter code point is that character. -/
theorem toLower_fix {d a : Char} (h : d.toLower = a) (ha : a.toNat < 97 ∨ 122 < a.toNat) :
    d = a := by
  have hdef : d.toLower = if Char.toNat d ≥ 65 ∧ Char.toNat d ≤ 90
      then Char.ofNat (Char.toNat d + 32) else d := rfl
  rw [hdef] at h
  split at h
  · next hc =>
    have hv : Char.isValidCharNat (Char.toNat d + 32) := Or.inl (by omega)
    have ht := char_toNat_ofNat hv
    rw [h] at ht
    omega
  · exact h

/-- Inversion of `ciEqL` on an empty pattern text. -/
theorem ciEqL_nil_inv {ci : Bool} {g : List Char} (h : ciEqL ci [] g) : g = [] := by
  cases g with
  | nil => rfl
  | cons d s => exact absurd h (by simp [ciEqL])

/-- Inversion of `ciEqL` on a pattern text starting with a character. -/
theorem ciEqL_cons_inv {ci : Bool} {x : Char} {xs g : List Char}
    (h : ciEqL ci (x :: xs) g) :
    ∃ d g', g = d :: g' ∧ chEq ci x d = true ∧ ciEqL ci xs g' := by
  cases g with
  | nil => exact absurd h (by simp [ciEqL])
  | cons d g' => exact ⟨d, g', rfl, h.1, h.2⟩

/-- Inversion of `ciEqL` against a matched text starting with a character. -/
theorem ciEqL_cons_inv_right {ci : Bool} {l : List Char} {d : Char} {g' : List Char}
    (h : ciEqL ci l (d :: g')) :
    ∃ x xs, l = x :: xs ∧ chEq ci x d = true ∧ ciEqL ci xs g' := by
  cases l with
  | nil => exact absurd h (by simp [ciEqL])
  | cons x xs => exact ⟨x, xs, rfl, h.1, h.2⟩

/-- Splitting `ciEqL` along an append of the matched text. -/
theorem ciEqL_append_split {ci : Bool} : ∀ {a b l : List Char}, ciEqL ci l (a ++ b) →
    ∃ l1 l2, l = l1 ++ l2 ∧ ciEqL ci l1 a ∧ ciEqL ci l2 b := by
  intro a
  induction a with
  | nil => intro b l h; exact ⟨[], l, rfl, trivial, h⟩
  | cons x a ih =>
    intro b l h
    cases l with
    | nil => exact absurd h (by simp [ciEqL])
    | cons y l' =>
      obtain ⟨h1, h2⟩ := h
      obtain ⟨l1, l2, hl, ha, hb⟩ := ih h2
      exact ⟨y :: l1, l2, by rw [hl]; rfl, ⟨h1, ha⟩, hb⟩

/-- Inversion of a match derivation starting with a literal token. -/
theorem ndm_lit_inv {ci : Bool} {l : List Char} {ts : List Tok} {cons : List Char}
    {caps caps1 : List (List Char)} (h : NdM ci (Tok.lit l :: ts) cons caps caps1) :
    ∃ cs c2, cons = cs ++ c2 ∧ ciEqL ci l cs ∧ NdM ci ts c2 caps caps1 := by
  cases h with
  | lit _ cs he hd => exact ⟨cs, _, rfl, he, hd⟩

/-- Inversion of a match derivation starting with a whitespace token. -/
theorem ndm_ws_inv {ci : Bool} {m : Nat} {ts : List Tok} {cons : List Char}
    {caps caps1 : List (List Char)} (h : NdM ci (Tok.ws m :: ts) cons caps caps1) :
    ∃ cs c2, cons = cs ++ c2 ∧ (∀ c ∈ cs, isSpaceCh c) ∧ m ≤ cs.length ∧
      NdM ci ts c2 caps caps1 := by
  cases h with
  | ws _ cs hsp hm hd => exact ⟨cs, _, rfl, hsp, hm, hd⟩

/-- Inversion of a match derivation starting with a capture token. -/
theorem ndm_cap_inv {ci : Bool} {ts : List Tok} {cons : List Char}
    {caps caps1 : List (List Char)} (h : NdM ci (Tok.cap :: ts) cons caps caps1) :
    ∃ cs c2, cons = cs ++ c2 ∧ cs ≠ [] ∧ (∀ c ∈ cs, isWordCh c) ∧
      NdM ci ts c2 (caps ++ [cs]) caps1 := by
  cases h with
  | cap cs hne hw hd => exact ⟨cs, _, rfl, hne, hw, hd⟩

/-- Inversion of a match derivation starting with the back-reference token. -/
theorem ndm_ref_inv {ci : Bool} {ts : List Tok} {cons : List Char}
    {caps caps1 : List (List Char)} (h : NdM ci (Tok.ref :: ts) cons caps caps1) :
    ∃ cs c2, cons = cs ++ c2 ∧ ciEqL ci (caps.headD []) cs ∧ NdM ci ts c2 caps caps1 := by
  cases h with
  | ref cs he hd => exact ⟨cs, _, rfl, he, hd⟩

/-- Pushing a non-empty word capture preserves the capture invariant. -/
theorem capsWord_push {caps : List (List Char)} {cs : List Char} (hc : CapsWord caps)
    (hne : cs ≠ []) (hw : ∀ c ∈ cs, isWordCh c) : CapsWord (caps ++ [cs]) := by
  intro x hx
  rcases List.mem_append.mp hx with hx | hx
  · exact hc x hx
  · rcases List.mem_singleton.mp hx with rfl
    exact ⟨hne, hw⟩

/-- A run of characters satisfying `P` that starts a text stops before the first
character violating `P`. -/
theorem allP_stop {P : Char → Bool} {d : Char} (hd : P d = false) :
    ∀ {g : List Char} {x z r : List Char}, (∀ c ∈ g, P c = true) →
    x ++ d :: z = g ++ r → ∃ g', x = g ++ g' := by
  intro g
  induction g with
  | nil => intro x z r _ _; exact ⟨x, rfl⟩
  | cons c g' ih =>
    intro x z r hall h
    cases x with
    | nil =>
      simp only [List.nil_append, List.cons_append, List.cons.injEq] at h
      rw [h.1] at hd
      rw [hall c (by simp)] at hd
      exact absurd hd (by simp)
    | cons a x' =>
      simp only [List.cons_append, List.cons.injEq] at h
      obtain ⟨g'', hg⟩ := ih (fun e he => hall e (by simp [he])) h.2
      exact ⟨g'', by rw [h.1, hg]; rfl⟩

/-- An all-whitespace run aligned with a text whose head is not whitespace is empty. -/
theorem space_nil_of_head {sp rest : List Char} {d : Char} {z : List Char}
    (hsp : ∀ x ∈ sp, isSpaceCh x) (h : sp ++ rest = d :: z)
    (hd : isSpaceCh d = false) : sp = [] := by
  cases sp with
  | nil => rfl
  | cons s₀ sp' =>
    simp only [List.cons_append, List.cons.injEq] at h
    have := hsp s₀ (by simp)
    rw [h.1, hd] at this
    exact absurd this (by simp)

/-- A match of a non-trivial pattern is never empty. -/
theorem matchHere_ne_nil {p : Pat} {c : List Char} (h37 : 37 ≤ litWs p.toks)
    (h : MatchHere p c) : c ≠ [] := by
  obtain ⟨caps1, hm⟩ := h
  have hl := ndm_len hm
  intro he
  subst he
  simp only [List.length_nil] at hl
  omega

/-- All characters of `ArgumentNullException` are word characters. -/
theorem ane_word : ∀ c ∈ ("ArgumentNullException").data, isWordCh c = true := by decide

/-- The left replacement text split at its only dot. -/
theorem replA_split :
    replA = ("ArgumentNullException").data ++ ('.' :: ("ThrowIfNull(").data) := rfl

/-- The left replacement text starts with the letter `A`. -/
theorem replA_cons : replA = 'A' :: ("rgumentNullException.ThrowIfNull(").data := rfl

/-- The right replacement text, character by character. -/
theorem replB_cons : replB = ')' :: ';' :: [] := rfl

/-- The only suffixes of pattern literals whose head lower-cases to `a`. -/
theorem lits_suffix_a : ∀ l ∈ LITS, ∀ l2 ∈ l.tails, l2 ≠ [] →
    ((l2.headD ' ').toLower = ('a')) →
    l2 = ("ArgumentNullException").data ∨ l2 = ("ameof").data := by decide

/-- The only pattern literal having `ArgumentNullException` as a suffix is itself. -/
theorem lits_ane : ∀ l ∈ LITS, ∀ l2 ∈ l.tails,
    l2 = ("ArgumentNullException").data → l = ("ArgumentNullException").data := by decide

/-- No suffix of `ArgumentNullException` starts with `is` (case-insensitively). -/
theorem ane_no_is : ∀ l2 ∈ (("ArgumentNullException").data).tails, 2 ≤ l2.length →
    ¬(((l2.headD ' ').toLower = ('i')) ∧ (((l2.drop 1).headD ' ').toLower = ('s'))) := by
  decide

/-- The suffixes of the left replacement text whose head lower-cases to `i`. -/
theorem replA_tails_i : ∀ e ∈ replA.tails, e ≠ [] → ((e.headD ' ').toLower = ('i')) →
    e = ("ion.ThrowIfNull(").data ∨ e = ("IfNull(").data := by decide

/-- The left replacement text starts with the letters `Ar`. -/
theorem replA_cons2 : replA = 'A' :: 'r' :: ("gumentNullException.ThrowIfNull(").data := rfl

/-- A well-formed token list decomposes into its head's follower constraint and a
well-formed tail. -/
theorem wfToks_cons {t : Tok} {ts : List Tok} (h : wfToks (t :: ts) = true) :
    wfTail t ts = true ∧ wfToks ts = true := by
  simpa [wfToks, Bool.and_eq_true] using h

/-- Every literal of a well-formed token list is a pattern literal. -/
theorem wfTail_lit_mem {l : List Char} {ts : List Tok}
    (h : wfTail (Tok.lit l) ts = true) : l ∈ LITS := by
  simp only [wfTail, Bool.and_eq_true, decide_eq_true_eq] at h
  exact h.1

/-- In a well-formed token list the literal `ArgumentNullException` is followed by
`\s*\(`. -/
theorem wfTail_ane {ts : List Tok}
    (h : wfTail (Tok.lit (("ArgumentNullException").data)) ts = true) :
    ∃ ts', ts = Tok.ws 0 :: Tok.lit (("(").data) :: ts' := by
  simp only [wfTail, Bool.and_eq_true, Bool.or_eq_true, decide_eq_true_eq] at h
  rcases h.2 with h2 | h2
  · exact absurd rfl h2
  · cases ts with
    | nil => simp at h2
    | cons t0 ts1 =>
      cases t0 with
      | ws m =>
        cases m with
        | zero =>
          cases ts1 with
          | nil => simp at h2
          | cons t1 ts2 =>
            cases t1 with
            | lit l2 =>
              simp only [decide_eq_true_eq] at h2
              exact ⟨ts2, by rw [h2]⟩
            | ws k => simp at h2
            | cap => simp at h2
            | ref => simp at h2
        | succ k => simp at h2
      | lit l2 => simp at h2
      | cap => simp at h2
      | ref => simp at h2

/-- In a well-formed token list a capture is followed by `\s*==`, `\s*is`/`\s+is`,
or a closing quote literal. -/
theorem wfTail_cap {ts : List Tok} (h : wfTail Tok.cap ts = true) :
    (∃ k l2 ts', ts = Tok.ws k :: Tok.lit l2 :: ts' ∧
      (l2 = ("==").data ∨ l2 = ("is").data)) ∨
    ∃ ts', ts = Tok.lit (("\"").data) :: ts' := by
  simp only [wfTail] at h
  cases ts with
  | nil => simp at h
  | cons t0 ts1 =>
    cases t0 with
    | ws k =>
      cases ts1 with
      | nil => simp at h
      | cons t1 ts2 =>
        cases t1 with
        | lit l2 =>
          simp only [Bool.or_eq_true, decide_eq_true_eq] at h
          exact Or.inl ⟨k, l2, ts2, rfl, h⟩
        | ws m => simp at h
        | cap => simp at h
        | ref => simp at h
    | lit l2 =>
      simp only [decide_eq_true_eq] at h
      exact Or.inr ⟨ts1, by rw [h]⟩
    | cap => simp at h
    | ref => simp at h

/-- In a well-formed token list the back-reference is followed by `\s*\)\s*\)\s*;`. -/
theorem wfTail_ref {ts : List Tok} (h : wfTail Tok.ref ts = true) :
    ∃ ts', ts = Tok.ws 0 :: Tok.lit (((")")).data) :: Tok.ws 0 ::
      Tok.lit (((")")).data) :: Tok.ws 0 :: Tok.lit (((";")).data) :: ts' := by
  simp only [wfTail] at h
  cases ts with
  | nil => simp at h
  | cons t0 ts1 =>
    cases t0 with
    | lit l0 => simp at h
    | cap => simp at h
    | ref => simp at h
    | ws m =>
      cases m with
      | succ k => simp at h
      | zero =>
        cases ts1 with
        | nil => simp at h
        | cons t1 ts2 =>
          cases t1 with
          | ws k => simp at h
          | cap => simp at h
          | ref => simp at h
          | lit l1 =>
            cases ts2 with
            | nil => simp at h
            | cons t2 ts3 =>
              cases t2 with
              | lit l => simp at h
              | cap => simp at h
              | ref => simp at h
              | ws m2 =>
                cases m2 with
                | succ k => simp at h
                | zero =>
                  cases ts3 with
                  | nil => simp at h
                  | cons t3 ts4 =>
                    cases t3 with
                    | ws k => simp at h
                    | cap => simp at h
                    | ref => simp at h
                    | lit l2 =>
                      cases ts4 with
                      | nil => simp at h
                      | cons t4 ts5 =>
                        cases t4 with
                        | lit l => simp at h
                        | cap => simp at h
                        | ref => simp at h
                        | ws m4 =>
                          cases m4 with
                          | succ k => simp at h
                          | zero =>
                            cases ts5 with
                            | nil => simp at h
                            | cons t5 ts6 =>
                              cases t5 with
                              | ws k => simp at h
                              | cap => simp at h
                              | ref => simp at h
                              | lit l3 =>
                                simp only [Bool.and_eq_true, decide_eq_true_eq] at h
                                obtain ⟨⟨e1, e2⟩, e3⟩ := h
                                exact ⟨ts6, by rw [e1, e2, e3]⟩

/-- No match of a well-formed token list can cross into an occurrence of the
canonical replacement text: a consumed text that extends past the start of
`ArgumentNullException.ThrowIfNull(` is impossible, because every way the tokens
could consume the boundary letter `A` dies inside the fixed prefix. -/
theorem ndm_no_cross {ci : Bool} : ∀ {ts : List Tok} {cons : List Char}
    {caps caps1 : List (List Char)}, NdM ci ts cons caps caps1 →
    wfToks ts = true → CapsWord caps →
    ∀ pre e W r', cons = pre ++ e → e ≠ [] → replA ++ W = e ++ r' → False := by
  intro ts cons caps caps1 h
  induction h with
  | nil caps =>
    intro _ _ pre e W r' hc hne _
    exact hne (List.append_eq_nil.mp hc.symm).2
  | @lit l cs ts2 c2 caps2 caps3 he hd ih =>
    intro hwf hcaps pre e W r' hc hne hra
    obtain ⟨hwt, hwts⟩ := wfToks_cons hwf
    rcases List.append_eq_append_iff.mp hc with ⟨g, hg1, hg2⟩ | ⟨g, hcs, he2⟩
    · exact ih hwts hcaps g e W r' hg2 hne hra
    · cases g with
      | nil =>
        rw [List.append_nil] at hcs
        exact ih hwts hcaps [] e W r' (by simpa using he2.symm) hne hra
      | cons d0 g0 =>
        have hlits : l ∈ LITS := wfTail_lit_mem hwt
        rw [hcs] at he
        obtain ⟨l1, l2, hl, hml1, hml2⟩ := ciEqL_append_split he
        obtain ⟨x, xs, hl2x, hx, hxs⟩ := ciEqL_cons_inv_right hml2
        have hra2 : replA ++ W = d0 :: (g0 ++ (c2 ++ r')) := by
          rw [hra, he2]
          simp
        have hd0 : d0 = 'A' := by
          rw [replA_cons] at hra2
          injection hra2 with h1 _
          exact h1.symm
        have hxa : (l2.headD ' ').toLower = ('a') := by
          rw [hl2x]
          have h3 := chEq_toLower hx
          rw [hd0] at h3
          rw [show ('A').toLower = ('a') by decide] at h3
          simpa using h3
        have hmem : l2 ∈ l.tails := (List.mem_tails _ _).mpr ⟨l1, hl.symm⟩
        have hne2 : l2 ≠ [] := by rw [hl2x]; simp
        rcases lits_suffix_a l hlits l2 hmem hne2 hxa with hl2a | hl2a
        · -- the literal is `ArgumentNullException` crossing exactly at the boundary
          have hlane : l = ("ArgumentNullException").data := lits_ane l hlits l2 hmem hl2a
          rw [hlane] at hwt
          obtain ⟨ts', hts⟩ := wfTail_ane hwt
          have hlen := ciEqL_length hml2
          rw [hl2a] at hlen
          have hAW : replA ++ W = ("ArgumentNullException").data ++
              ('.' :: (("ThrowIfNull(").data ++ W)) := rfl
          have hEq : ("ArgumentNullException").data ++
              ('.' :: (("ThrowIfNull(").data ++ W)) = (d0 :: g0) ++ (c2 ++ r') := by
            rw [← hAW, hra, he2]
            simp
          obtain ⟨hANE, hrest⟩ := List.append_inj hEq hlen
          subst hts
          obtain ⟨sp, cw2, hc2, hsp, hm0, hd2⟩ := ndm_ws_inv hd
          obtain ⟨csp, c3, hcw2, hmlp, hd3⟩ := ndm_lit_inv hd2
          obtain ⟨dp, gp, hcsp, hxp, hgp0⟩ := ciEqL_cons_inv hmlp
          have hgp : gp = [] := ciEqL_nil_inv hgp0
          have hdp : dp = '(' := by
            have h3 := chEq_toLower hxp
            rw [show ('(').toLower = ('(') by decide] at h3
            exact toLower_fix h3.symm (by decide)
          have hrem2 : sp ++ (dp :: (c3 ++ r')) =
              '.' :: (("ThrowIfNull(").data ++ W) := by
            rw [hrest, hc2, hcw2, hcsp, hgp]
            simp
          have hspn : sp = [] := space_nil_of_head hsp hrem2 (by decide)
          rw [hspn, List.nil_append] at hrem2
          injection hrem2 with h4 _
          rw [hdp] at h4
          exact absurd h4 (by decide)
        · -- the literal ends in `ameof`: its second letter cannot match `r`
          rw [hl2a] at hml2
          obtain ⟨da, ga, hga, hcha, hrest1⟩ := ciEqL_cons_inv hml2
          obtain ⟨dm, gm, hgm, hchm, _⟩ := ciEqL_cons_inv hrest1
          have hra3 : replA ++ W = da :: dm :: (gm ++ (c2 ++ r')) := by
            rw [hra, he2, hga, hgm]
            simp
          rw [replA_cons2] at hra3
          injection hra3 with _ hra4
          injection hra4 with h5 _
          have h6 := chEq_toLower hchm
          rw [← h5] at h6
          rw [show ('m').toLower = ('m') by decide,
            show ('r').toLower = ('r') by decide] at h6
          exact absurd h6 (by decide)
  | @ws m cs ts2 c2 caps2 caps3 hsp hm hd ih =>
    intro hwf hcaps pre e W r' hc hne hra
    obtain ⟨hwt, hwts⟩ := wfToks_cons hwf
    rcases List.append_eq_append_iff.mp hc with ⟨g, hg1, hg2⟩ | ⟨g, hcs, he2⟩
    · exact ih hwts hcaps g e W r' hg2 hne hra
    · cases g with
      | nil =>
        rw [List.append_nil] at hcs
        exact ih hwts hcaps [] e W r' (by simpa using he2.symm) hne hra
      | cons d0 g0 =>
        have hra2 : replA ++ W = d0 :: (g0 ++ (c2 ++ r')) := by
          rw [hra, he2]
          simp
        have hd0 : d0 = 'A' := by
          rw [replA_cons] at hra2
          injection hra2 with h1 _
          exact h1.symm
        have hds : isSpaceCh d0 = true := hsp d0 (by rw [hcs]; simp)
        rw [hd0] at hds
        exact absurd hds (by decide)
  | @cap cs ts2 c2 caps2 caps3 hne0 hw hd ih =>
    intro hwf hcaps pre e W r' hc hne hra
    obtain ⟨hwt, hwts⟩ := wfToks_cons hwf
    rcases List.append_eq_append_iff.mp hc with ⟨g, hg1, hg2⟩ | ⟨g, hcs, he2⟩
    · exact ih hwts (capsWord_push hcaps hne0 hw) g e W r' hg2 hne hra
    · cases g with
      | nil =>
        rw [List.append_nil] at hcs
        exact ih hwts (capsWord_push hcaps hne0 hw) [] e W r'
          (by simpa using he2.symm) hne hra
      | cons d0 g0 =>
        have hgw : ∀ c ∈ (d0 :: g0), isWordCh c = true := by
          intro c hcc
          exact hw c (by rw [hcs]; simp [hcc])
        have hAW : replA ++ W = ("ArgumentNullException").data ++
            ('.' :: (("ThrowIfNull(").data ++ W)) := rfl
        have hEq : ("ArgumentNullException").data ++
            ('.' :: (("ThrowIfNull(").data ++ W)) = (d0 :: g0) ++ (c2 ++ r') := by
          rw [← hAW, hra, he2]
          simp
        obtain ⟨g', hg'⟩ := allP_stop (by decide : isWordCh '.' = false) hgw hEq
        have hgw' : ∀ c ∈ g', isWordCh c = true := by
          intro c hcc
          exact ane_word c (by rw [hg']; simp [hcc])
        have hrem : c2 ++ r' = g' ++ ('.' :: (("ThrowIfNull(").data ++ W)) := by
          have h2 := hEq
          rw [hg', List.append_assoc] at h2
          exact ((List.append_inj h2 rfl).2).symm
        have hsufANE : ∀ gg, g' = gg →
            gg ∈ (("ArgumentNullException").data).tails := by
          intro gg hgg
          refine (List.mem_tails _ _).mpr ⟨d0 :: g0, ?_⟩
          rw [← hgg, hg']
        rcases wfTail_cap hwt with ⟨k, l2, ts', hts, hl2⟩ | ⟨ts', hts⟩
        · subst hts
          obtain ⟨sp, cw2, hc2, hsp, hk, hd2⟩ := ndm_ws_inv hd
          obtain ⟨csl, c3, hcw2, hmll, hd3⟩ := ndm_lit_inv hd2
          rcases hl2 with hl2 | hl2
          · -- `==` follower
            rw [hl2] at hmll
            obtain ⟨de, ge, hge, hche, _⟩ := ciEqL_cons_inv hmll
            have hde : de = '=' := by
              have h3 := chEq_toLower hche
              rw [show ('=').toLower = ('=') by decide] at h3
              exact toLower_fix h3.symm (by decide)
            have hrem2 : sp ++ (de :: (ge ++ (c3 ++ r'))) =
                g' ++ ('.' :: (("ThrowIfNull(").data ++ W)) := by
              rw [← hrem, hc2, hcw2, hge]
              simp
            cases g' with
            | nil =>
              have hspn : sp = [] := space_nil_of_head hsp (by simpa using hrem2) (by decide)
              rw [hspn, List.nil_append] at hrem2
              simp only [List.nil_append] at hrem2
              injection hrem2 with h4 _
              rw [hde] at h4
              exact absurd h4 (by decide)
            | cons h0 g'' =>
              have hh0 : isWordCh h0 = true := hgw' h0 (by simp)
              have hspn : sp = [] :=
                space_nil_of_head hsp (by simpa using hrem2) (word_not_space hh0)
              rw [hspn, List.nil_append] at hrem2
              simp only [List.cons_append] at hrem2
              injection hrem2 with h4 _
              rw [hde] at h4
              rw [← h4] at hh0
              exact absurd hh0 (by decide)
          · -- `is` follower
            rw [hl2] at hmll
            obtain ⟨d1, g1, hg1e, hch1, hrest1⟩ := ciEqL_cons_inv hmll
            obtain ⟨d2, g2, hg2e, hch2, hrest2⟩ := ciEqL_cons_inv hrest1
            have hg2 : g2 = [] := ciEqL_nil_inv hrest2
            have hd1 : d1.toLower = ('i') := by
              have h3 := chEq_toLower hch1
              rw [show ('i').toLower = ('i') by decide] at h3
              exact h3.symm
            have hd2c : d2.toLower = ('s') := by
              have h3 := chEq_toLower hch2
              rw [show ('s').toLower = ('s') by decide] at h3
              exact h3.symm
            have hrem2 : sp ++ (d1 :: d2 :: (c3 ++ r')) =
                g' ++ ('.' :: (("ThrowIfNull(").data ++ W)) := by
              rw [← hrem, hc2, hcw2, hg1e, hg2e, hg2]
              simp
            cases g' with
            | nil =>
              have hspn : sp = [] := space_nil_of_head hsp (by simpa using hrem2) (by decide)
              rw [hspn, List.nil_append] at hrem2
              simp only [List.nil_append] at hrem2
              injection hrem2 with h4 _
              rw [h4] at hd1
              exact absurd hd1 (by decide)
            | cons h0 g'' =>
              have hh0 : isWordCh h0 = true := hgw' h0 (by simp)
              have hspn : sp = [] :=
                space_nil_of_head hsp (by simpa using hrem2) (word_not_space hh0)
              rw [hspn, List.nil_append] at hrem2
              simp only [List.cons_append] at hrem2
              injection hrem2 with h4 h5
              cases g'' with
              | nil =>
                simp only [List.nil_append] at h5
                injection h5 with h6 _
                rw [h6] at hd2c
                exact absurd hd2c (by decide)
              | cons h1 g''' =>
                simp only [List.cons_append] at h5
                injection h5 with h6 _
                have hmem2 := hsufANE (h0 :: h1 :: g''') rfl
                have hno := ane_no_is _ hmem2 (by simp)
                refine hno ⟨?_, ?_⟩
                · simpa [← h4] using hd1
                · simpa [← h6] using hd2c
        · -- closing-quote follower
          subst hts
          obtain ⟨csl, c3, hc2, hmll, hd2⟩ := ndm_lit_inv hd
          obtain ⟨dq, gq, hgq, hchq, hgq0⟩ := ciEqL_cons_inv hmll
          have hgqn : gq = [] := ciEqL_nil_inv hgq0
          have hdq : dq = '\"' := by
            have h3 := chEq_toLower hchq
            rw [show ('\"').toLower = ('\"') by decide] at h3
            exact toLower_fix h3.symm (by decide)
          have hrem2 : dq :: (c3 ++ r') =
              g' ++ ('.' :: (("ThrowIfNull(").data ++ W)) := by
            rw [← hrem, hc2, hgq, hgqn]
            simp
          cases g' with
          | nil =>
            simp only [List.nil_append] at hrem2
            injection hrem2 with h4 _
            rw [hdq] at h4
            exact absurd h4 (by decide)
          | cons h0 g'' =>
            have hh0 : isWordCh h0 = true := hgw' h0 (by simp)
            simp only [List.cons_append] at hrem2
            injection hrem2 with h4 _
            rw [hdq] at h4
            rw [← h4] at hh0
            exact absurd hh0 (by decide)
  | @ref cs ts2 c2 caps2 caps3 hmr hd ih =>
    intro hwf hcaps pre e W r' hc hne hra
    obtain ⟨hwt, hwts⟩ := wfToks_cons hwf
    rcases List.append_eq_append_iff.mp hc with ⟨g, hg1, hg2⟩ | ⟨g, hcs, he2⟩
    · exact ih hwts hcaps g e W r' hg2 hne hra
    · cases g with
      | nil =>
        rw [List.append_nil] at hcs
        exact ih hwts hcaps [] e W r' (by simpa using he2.symm) hne hra
      | cons d0 g0 =>
        have hcw : ∀ c ∈ cs, isWordCh c := by
          cases hcap0 : caps2 with
          | nil =>
            rw [hcap0] at hmr
            have : cs = [] := ciEqL_nil_inv (by simpa using hmr)
            rw [this] at hcs
            exact absurd hcs.symm (by simp)
          | cons c0 caps' =>
            have hw0 := hcaps c0 (by rw [hcap0]; simp)
            refine ciEqL_word hmr ?_
            rw [hcap0]
            simpa using hw0.2
        have hgw : ∀ c ∈ (d0 :: g0), isWordCh c = true := by
          intro c hcc
          exact hcw c (by rw [hcs]; simp [hcc])
        have hAW : replA ++ W = ("ArgumentNullException").data ++
            ('.' :: (("ThrowIfNull(").data ++ W)) := rfl
        have hEq : ("ArgumentNullException").data ++
            ('.' :: (("ThrowIfNull(").data ++ W)) = (d0 :: g0) ++ (c2 ++ r') := by
          rw [← hAW, hra, he2]
          simp
        obtain ⟨g', hg'⟩ := allP_stop (by decide : isWordCh '.' = false) hgw hEq
        have hgw' : ∀ c ∈ g', isWordCh c = true := by
          intro c hcc
          exact ane_word c (by rw [hg']; simp [hcc])
        have hrem : c2 ++ r' = g' ++ ('.' :: (("ThrowIfNull(").data ++ W)) := by
          have h2 := hEq
          rw [hg', List.append_assoc] at h2
          exact ((List.append_inj h2 rfl).2).symm
        obtain ⟨ts', hts⟩ := wfTail_ref hwt
        subst hts
        obtain ⟨sp, cw2, hc2, hsp, hk, hd2⟩ := ndm_ws_inv hd
        obtain ⟨csp, c3, hcw2, hmlp, hd3⟩ := ndm_lit_inv hd2
        obtain ⟨dp, gp, hgpe, hxp, hgp0⟩ := ciEqL_cons_inv hmlp
        have hgpn : gp = [] := ciEqL_nil_inv hgp0
        have hdp : dp = ')' := by
          have h3 := chEq_toLower hxp
          rw [show (')').toLower = (')') by decide] at h3
          exact toLower_fix h3.symm (by decide)
        have hrem2 : sp ++ (dp :: (c3 ++ r')) =
            g' ++ ('.' :: (("ThrowIfNull(").data ++ W)) := by
          rw [← hrem, hc2, hcw2, hgpe, hgpn]
          simp
        cases g' with
        | nil =>
          have hspn : sp = [] := space_nil_of_head hsp (by simpa using hrem2) (by decide)
          rw [hspn, List.nil_append] at hrem2
          simp only [List.nil_append] at hrem2
          injection hrem2 with h4 _
          rw [hdp] at h4
          exact absurd h4 (by decide)
        | cons h0 g'' =>
          have hh0 : isWordCh h0 = true := hgw' h0 (by simp)
          have hspn : sp = [] :=
            space_nil_of_head hsp (by simpa using hrem2) (word_not_space hh0)
          rw [hspn, List.nil_append] at hrem2
          simp only [List.cons_append] at hrem2
          injection hrem2 with h4 _
          rw [hdp] at h4
          rw [← h4] at hh0
          exact absurd hh0 (by decide)

/-- Every match of a well-formed pattern starts with `if\s*\(`: two letters
lower-casing to `i` and `f`, a whitespace run, then a literal `(`. -/
theorem ndm_start {p : Pat} (hp : wfPat p) {c : List Char} (h : MatchHere p c) :
    ∃ d1 d2 sp d3 c4, c = d1 :: d2 :: (sp ++ d3 :: c4) ∧
      d1.toLower = ('i') ∧ d2.toLower = ('f') ∧ (∀ x ∈ sp, isSpaceCh x) ∧
      d3 = '(' := by
  obtain ⟨caps1, hm⟩ := h
  obtain ⟨hwf, ts, hts⟩ := hp
  rw [hts] at hm
  obtain ⟨csf, cf2, hcf, hmlf, hd1⟩ := ndm_lit_inv hm
  obtain ⟨di, gi, hgi, hchi, hrest1⟩ := ciEqL_cons_inv hmlf
  obtain ⟨df, gf, hgf, hchf, hrest2⟩ := ciEqL_cons_inv hrest1
  have hgfn : gf = [] := ciEqL_nil_inv hrest2
  obtain ⟨sp, cw2, hcw, hsp, _, hd2⟩ := ndm_ws_inv hd1
  obtain ⟨csp, c3, hcsp, hmlp, _⟩ := ndm_lit_inv hd2
  obtain ⟨dp, gp, hgpe, hchp, hgp0⟩ := ciEqL_cons_inv hmlp
  have hgpn : gp = [] := ciEqL_nil_inv hgp0
  refine ⟨di, df, sp, dp, c3, ?_, ?_, ?_, hsp, ?_⟩
  · rw [hcf, hgi, hgf, hgfn, hcw, hcsp, hgpe, hgpn]
    simp
  · have h3 := chEq_toLower hchi
    rw [show ('i').toLower = ('i') by decide] at h3
    exact h3.symm
  · have h3 := chEq_toLower hchf
    rw [show ('f').toLower = ('f') by decide] at h3
    exact h3.symm
  · have h3 := chEq_toLower hchp
    rw [show ('(').toLower = ('(') by decide] at h3
    exact toLower_fix h3.symm (by decide)

/-- The first character of any text beginning a match of a well-formed pattern
lower-cases to `i`. -/
theorem match_head_i {p : Pat} (hp : wfPat p) {c r2 : List Char} {d : Char}
    {z : List Char} (h : d :: z = c ++ r2) (hm : MatchHere p c) :
    d.toLower = ('i') := by
  obtain ⟨d1, d2, sp, d3, c4, hc, hd1, _, _, _⟩ := ndm_start hp hm
  rw [hc] at h
  simp only [List.cons_append] at h
  injection h with h1 _
  rw [h1]
  exact hd1

/-- The first two characters of any text beginning a match of a well-formed pattern
lower-case to `i` and `f`. -/
theorem match_head_if {p : Pat} (hp : wfPat p) {c r2 : List Char} {d d' : Char}
    {z : List Char} (h : d :: d' :: z = c ++ r2) (hm : MatchHere p c) :
    d.toLower = ('i') ∧ d'.toLower = ('f') := by
  obtain ⟨d1, d2, sp, d3, c4, hc, hd1, hd2, _, _⟩ := ndm_start hp hm
  rw [hc] at h
  simp only [List.cons_append] at h
  injection h with h1 h1'
  injection h1' with h2 _
  exact ⟨by rw [h1]; exact hd1, by rw [h2]; exact hd2⟩

/-- After the two `if` letters a match requires `\s*\(`; a continuation whose third
character is neither whitespace nor `(` is impossible. -/
theorem match_after_if {p : Pat} (hp : wfPat p) {c r2 : List Char} {d d' d0 : Char}
    {z : List Char} (h : d :: d' :: d0 :: z = c ++ r2) (hm : MatchHere p c)
    (hd0s : isSpaceCh d0 = false) (hd0p : d0 ≠ '(') : False := by
  obtain ⟨d1, d2, sp, d3, c4, hc, _, _, hsp, hd3⟩ := ndm_start hp hm
  rw [hc] at h
  simp only [List.cons_append] at h
  injection h with _ h1
  injection h1 with _ h2
  have hspn : sp = [] := by
    rw [List.append_assoc] at h2
    simp only [List.cons_append] at h2
    exact space_nil_of_head hsp h2.symm hd0s
  rw [hspn] at h2
  simp only [List.nil_append, List.cons_append] at h2
  injection h2 with h3 _
  exact hd0p (h3.trans hd3)

/-- No match of a well-formed pattern starts at the identifier or at the closing
text of a canonical replacement: the text from such a start reads `v);…` with a
word string `v`, which cannot begin with `if\s*\(`. -/
theorem alpha_zoneV {p : Pat} (hp : wfPat p) {v2 : List Char}
    (hvw : ∀ a ∈ v2, isWordCh a = true) :
    ∀ c after r2, (v2 ++ replB) ++ after = c ++ r2 → MatchHere p c → False := by
  intro c after r2 hpre hm
  cases v2 with
  | nil =>
    rw [List.nil_append, replB_cons] at hpre
    simp only [List.cons_append] at hpre
    have := match_head_i hp hpre hm
    exact absurd this (by decide)
  | cons a e2 =>
    cases e2 with
    | nil =>
      rw [replB_cons] at hpre
      simp only [List.cons_append, List.nil_append] at hpre
      have h2 := match_head_if hp hpre hm
      exact absurd h2.2 (by decide)
    | cons b e3 =>
      cases e3 with
      | nil =>
        rw [replB_cons] at hpre
        simp only [List.cons_append, List.nil_append] at hpre
        exact match_after_if hp hpre hm (by decide) (by decide)
      | cons b0 e4 =>
        have hb0 : isWordCh b0 = true := hvw b0 (by simp)
        simp only [List.cons_append, List.append_assoc] at hpre
        refine match_after_if hp hpre hm (word_not_space hb0) ?_
        intro heq
        rw [heq] at hb0
        exact absurd hb0 (by decide)

/-- No match of a well-formed pattern starts inside an occurrence of the canonical
replacement `ArgumentNullException.ThrowIfNull(v);` with a word-string identifier:
every start position fails the required `if\s*\(` prefix. -/
theorem no_start_inside {p : Pat} (hp : wfPat p) {v : List Char}
    (hv : ∀ a ∈ v, isWordCh a = true) :
    ∀ w x, replA ++ v ++ replB = w ++ x → x ≠ [] →
    ∀ c after r2, x ++ after = c ++ r2 → MatchHere p c → False := by
  intro w x hR hxne c after r2 hpre hm
  have hR' : replA ++ (v ++ replB) = w ++ x := by
    rw [← List.append_assoc]
    exact hR
  rcases List.append_eq_append_iff.mp hR' with ⟨e, hwE, hvx⟩ | ⟨e, hwa, hx⟩
  · rcases List.append_eq_append_iff.mp hvx with ⟨f, he, hrb⟩ | ⟨e', hve, hx⟩
    · rw [replB_cons] at hrb
      cases f with
      | nil =>
        simp only [List.nil_append] at hrb
        rw [← hrb] at hpre
        simp only [List.cons_append] at hpre
        have := match_head_i hp hpre hm
        exact absurd this (by decide)
      | cons f0 f' =>
        cases f' with
        | nil =>
          simp only [List.cons_append, List.nil_append] at hrb
          injection hrb with h1 h2
          rw [← h2] at hpre
          simp only [List.cons_append] at hpre
          have := match_head_i hp hpre hm
          exact absurd this (by decide)
        | cons f1 f'' =>
          simp only [List.cons_append] at hrb
          injection hrb with h1 h2
          injection h2 with h3 h4
          exact hxne (List.append_eq_nil.mp h4.symm).2
    · have he'w : ∀ a ∈ e', isWordCh a = true := by
        intro a ha
        exact hv a (by rw [hve]; simp [ha])
      rw [hx] at hpre
      exact alpha_zoneV hp he'w c after r2 hpre hm
  · cases e with
    | nil =>
      rw [List.nil_append] at hx
      rw [hx] at hpre
      exact alpha_zoneV hp hv c after r2 hpre hm
    | cons e0 e1 =>
      have hmem : (e0 :: e1) ∈ replA.tails := (List.mem_tails _ _).mpr ⟨w, hwa.symm⟩
      rw [hx] at hpre
      simp only [List.cons_append, List.append_assoc] at hpre
      have hi := match_head_i hp hpre hm
      have htl := replA_tails_i _ hmem (by simp) (by simpa using hi)
      rcases htl with he | he
      · injection he with h1 h2
        rw [h2] at hpre
        have h3 := match_head_if hp hpre hm
        exact absurd h3.2 (by decide)
      · injection he with h1 h2
        rw [h2] at hpre
        exact match_after_if hp hpre hm (by decide) (by decide)

/-- Locating a match inside a structured buffer: any match of a well-formed pattern
occurring as a substring of `b0 ++ flatSR sr` lies entirely inside `b0` or inside
one of the residual blocks — it can neither start inside nor cross into any of the
replacement occurrences. -/
theorem locate {p : Pat} (hp : wfPat p) :
    ∀ (sr : List (List Char × List Char)) (b0 u r : List Char) {c : List Char},
    (∀ pr ∈ sr, ∀ a ∈ pr.1, isWordCh a = true) →
    b0 ++ flatSR sr = u ++ c ++ r → MatchHere p c →
    (∃ x y, b0 = x ++ c ++ y) ∨ (∃ pr ∈ sr, ∃ x y, pr.2 = x ++ c ++ y) := by
  intro sr
  induction sr with
  | nil =>
    intro b0 u r c _ heq _
    simp only [flatSR, List.append_nil] at heq
    exact Or.inl ⟨u, r, heq⟩
  | cons pr rest ih =>
    intro b0 u r c hw heq hm
    have hw' : ∀ q ∈ rest, ∀ a ∈ q.1, isWordCh a = true := by
      intro q hq
      exact hw q (by simp [hq])
    have heq1 : b0 ++ ((replA ++ pr.1 ++ replB) ++ (pr.2 ++ flatSR rest)) =
        u ++ (c ++ r) := by
      simp only [flatSR] at heq
      simp only [List.append_assoc] at heq ⊢
      exact heq
    rcases List.append_eq_append_iff.mp heq1 with ⟨e, hu, hX⟩ | ⟨e, hb0, hcr⟩
    · rcases List.append_eq_append_iff.mp hX with ⟨a', he, hZ2⟩ | ⟨c2x, hRe, hccr⟩
      · rw [← List.append_assoc] at hZ2
        rcases ih pr.2 a' r hw' hZ2 hm with ⟨x, y, hxy⟩ | ⟨q, hq, x, y, hxy⟩
        · exact Or.inr ⟨pr, by simp, x, y, hxy⟩
        · exact Or.inr ⟨q, by simp [hq], x, y, hxy⟩
      · cases hc2x : c2x with
        | nil =>
          rw [hc2x] at hccr
          simp only [List.nil_append] at hccr
          rcases ih pr.2 [] r hw' (by rw [← hccr]; simp) hm with
            ⟨x, y, hxy⟩ | ⟨q, hq, x, y, hxy⟩
          · exact Or.inr ⟨pr, by simp, x, y, hxy⟩
          · exact Or.inr ⟨q, by simp [hq], x, y, hxy⟩
        | cons a0 c2' =>
          refine absurd hm ?_
          intro hm'
          exact no_start_inside hp (hw pr (by simp)) e c2x hRe
            (by rw [hc2x]; simp) c (pr.2 ++ flatSR rest) r hccr.symm hm'
    · rcases List.append_eq_append_iff.mp hcr with ⟨a', he, hr⟩ | ⟨c', hc, hX2⟩
      · exact Or.inl ⟨u, a', by rw [hb0, he, List.append_assoc]⟩
      · cases hc'x : c' with
        | nil =>
          rw [hc'x, List.append_nil] at hc
          exact Or.inl ⟨u, [], by rw [hb0, hc, List.append_nil]⟩
        | cons a0 c'' =>
          obtain ⟨caps1, hnd⟩ := hm
          simp only [List.append_assoc] at hX2
          exact absurd (ndm_no_cross hnd hp.1
            (by intro cs hcs; simp at hcs) e c'
            (pr.1 ++ (replB ++ (pr.2 ++ flatSR rest))) r hc
            (by rw [hc'x]; simp) hX2) (by simp)

/-- A structured buffer whose blocks are clean is clean as a whole: no substring of
`b0 ++ flatSR sr` is a match. -/
theorem whole_clean {p : Pat} (hp : wfPat p) {b0 : List Char}
    {sr : List (List Char × List Char)}
    (hv : ∀ pr ∈ sr, ∀ a ∈ pr.1, isWordCh a = true)
    (hb0 : NoSub p b0) (hbs : ∀ pr ∈ sr, NoSub p pr.2) :
    NoSub p (b0 ++ flatSR sr) := by
  intro u c r h hm
  rcases locate hp sr b0 u r hv h hm with ⟨x, y, hxy⟩ | ⟨pr, hpr, x, y, hxy⟩
  · exact hb0 x c y hxy hm
  · exact hbs pr hpr x c y hxy hm

/-- Unfolding of `modernize_patterns` to the pattern fold. -/
theorem modernize_patterns_def (c f : String) :
    modernize_patterns c f =
      (String.mk (foldPats comprehensivePats c.data).1,
       (foldPats comprehensivePats c.data).2) := rfl

/-- Unfolding of `quickContent` to the pattern fold. -/
theorem quickContent_def (c : String) :
    quickContent c =
      (String.mk (foldPats quickPats c.data).1, (foldPats quickPats c.data).2) := rfl

/-- Unfolding of `modernizeFileContent` to the pattern fold. -/
theorem modernizeFileContent_def (c : String) :
    modernizeFileContent c =
      (String.mk (foldPats OLD_PATTERNS c.data).1, (foldPats OLD_PATTERNS c.data).2) := rfl

/-- In dry-run mode `process_file` performs no filesystem operation: the write-back
is guarded by `if not self.dry_run` (line 116). -/
theorem process_file_dry_writes (path content : String) :
    (process_file true path content).writes = [] := by
  by_cases h : (modernize_patterns content path).2 > 0
  · simp [process_file, h]
  · simp [process_file, h]

/-- In dry-run mode a whole run performs no filesystem operation. -/
theorem runWrites_dry : ∀ files : List (String × String), runWrites true files = []
  | [] => rfl
  | f :: fs => by
    have ih := runWrites_dry fs
    simp only [runWrites, List.map_cons, List.flatten] at ih ⊢
    rw [process_file_dry_writes]
    simpa using ih

/-- C5: dry-run purity — for every input tree (every list of files with their
contents), a run of `ExceptionModernizer` in dry-run mode performs no filesystem
operation at all, and so changes no file's content or modification state on disk,
regardless of how many matches are found. -/
theorem C5_dry_run_purity :
    (∀ files : List (String × String), runWrites true files = []) ∧
    (∀ path content : String, (process_file true path content).writes = []) :=
  ⟨runWrites_dry, process_file_dry_writes⟩

/-- Initial filesystem used by the C4 counterexample: every path holds the line
`int x = 1;`. -/
def fsExample : FsState := fun _ => "int x = 1;"

/-- C4 (counterexample): the write-back is a truncating in-place rewrite, not a
temporary file plus atomic rename — a crash after the truncating `open(file_path, 'w')`
but before the write (running only the first of the two write-back operations)
leaves the original file empty, not byte-for-byte unchanged. -/
theorem C4_counterexample :
    runOps fsExample
        (List.take 1 (writeBackOps ("Program.cs") ("ArgumentNullException.ThrowIfNull(x);")))
        ("Program.cs")
      ≠ fsExample ("Program.cs") := by decide

/-- C4 (amended): in apply mode the rewritten content is written directly to the
original path — a truncating open followed by the write, with no temporary file and
no rename — so a crash between the truncation and the completed write leaves the
original file empty (or partially written), and only a completed write leaves the
new content in place. -/
theorem C4_amended_inplace_write (fs : FsState) (path newContent : String) :
    writeBackOps path newContent = [FsOp.truncate path, FsOp.write path newContent] ∧
    runOps fs (List.take 1 (writeBackOps path newContent)) path = "" ∧
    runOps fs (writeBackOps path newContent) path = newContent := by
  refine ⟨rfl, ?_, ?_⟩
  · simp [writeBackOps, runOps, applyOp]
  · simp [writeBackOps, runOps, applyOp]

/-- C8 (counterexample): a run of `modernize_exceptions.main` over a single file
whose read fails still exits with code 0 — the exit code is not non-zero when a
per-file read/write error occurred, contrary to the claim. -/
theorem C8_counterexample :
    ¬ (((mainRun [(("Broken.cs"), Except.error ("EACCES: permission denied"))]).exitCode = 0) ↔
        errorCount [(("Broken.cs"), Except.error ("EACCES: permission denied"))] = 0) := by
  decide

/-- C8 (amended): per-file failures are isolated — a file whose read fails is
swallowed by the `except` clause inside `modernize_file`, so the remaining files are
still processed and the summary over them is unchanged — but the failure is only
printed: the process exit code is 0 on every run, including runs with read/write
errors. -/
theorem C8_amended_isolation :
    (∀ files, (mainRun files).exitCode = 0) ∧
    (∀ p e rest, mainRun ((p, Except.error e) :: rest) =
      { filesProcessed := (mainRun rest).filesProcessed + 1,
        filesChanged := (mainRun rest).filesChanged,
        totalReplacements := (mainRun rest).totalReplacements,
        exitCode := 0 }) :=
  ⟨fun _ => rfl, fun _ _ _ => rfl⟩

/-- C6: the single-line old idiom with matching identifiers is rewritten to the
canonical `ArgumentNullException.ThrowIfNull(foo);` and counted as one replacement,
by `modernize_patterns`, by the `quick_modernize` pattern list, and by the
`OLD_PATTERNS` of `modernize_exceptions.py`. -/
theorem C6_example_rewrite :
    modernize_patterns ("if (foo == null) throw new ArgumentNullException(nameof(foo));")
        ("Demo.cs") = ("ArgumentNullException.ThrowIfNull(foo);", 1) ∧
    quickContent ("if (foo == null) throw new ArgumentNullException(nameof(foo));") =
      ("ArgumentNullException.ThrowIfNull(foo);", 1) ∧
    modernizeFileContent ("if (foo == null) throw new ArgumentNullException(nameof(foo));") =
      ("ArgumentNullException.ThrowIfNull(foo);", 1) := by
  refine ⟨?_, ?_, ?_⟩ <;> rfl

/-- C3 (counterexample): the string-argument variant with mismatched identifiers,
`if (bar == null) throw new ArgumentNullException("baz");`, is *not* left unchanged:
pattern 6 has no back-reference linking the quoted name to the null-checked
identifier, so the line is matched and rewritten (to `ThrowIfNull(bar)`), refuting
the claim that such occurrences are never matched. -/
theorem C3_counterexample :
    modernize_patterns ("if (bar == null) throw new ArgumentNullException(\"baz\");")
        ("Mismatch.cs")
      ≠ ("if (bar == null) throw new ArgumentNullException(\"baz\");", 0) ∧
    modernize_patterns ("if (bar == null) throw new ArgumentNullException(\"baz\");")
        ("Mismatch.cs")
      = ("ArgumentNullException.ThrowIfNull(bar);", 1) := by
  refine ⟨?_, ?_⟩
  · decide
  · rfl

/-- C3 (amended): only the `nameof` variants enforce identifier agreement through the
back-reference — `if (bar == null) throw new ArgumentNullException(nameof(baz));` is
not matched and is left unchanged with zero replacements — while the string-argument
variant of pattern 6 matches regardless of the mismatch and rewrites the occurrence
using the null-checked identifier. -/
theorem C3_amended_backreference :
    modernize_patterns ("if (bar == null) throw new ArgumentNullException(nameof(baz));")
        ("Mismatch.cs")
      = ("if (bar == null) throw new ArgumentNullException(nameof(baz));", 0) ∧
    modernize_patterns ("if (bar == null) throw new ArgumentNullException(\"baz\");")
        ("Mismatch.cs")
      = ("ArgumentNullException.ThrowIfNull(bar);", 1) := by
  refine ⟨?_, ?_⟩ <;> rfl

/-- C9: idiom matching is case-insensitive in `modernize_comprehensive.py` and
`quick_modernize.py` (`re.IGNORECASE`): the casing variant
`IF (x == NULL) THROW NEW ArgumentNullException(NAMEOF(x));` is matched and replaced
by the canonical `ArgumentNullException.ThrowIfNull(x);`, exactly as the
conventionally-cased form of the idiom is. -/
theorem C9_case_insensitive :
    modernize_patterns ("IF (x == NULL) THROW NEW ArgumentNullException(NAMEOF(x));")
        ("Case.cs")
      = ("ArgumentNullException.ThrowIfNull(x);", 1) ∧
    modernize_patterns ("IF (x == NULL) THROW NEW ArgumentNullException(NAMEOF(x));")
        ("Case.cs")
      = modernize_patterns ("if (x == null) throw new ArgumentNullException(nameof(x));")
          ("Case.cs") ∧
    quickContent ("IF (x == NULL) THROW NEW ArgumentNullException(NAMEOF(x));")
      = ("ArgumentNullException.ThrowIfNull(x);", 1) := by
  refine ⟨?_, ?_, ?_⟩ <;> rfl

/-- The structure of a fuel-exhausted scan: everything copied. -/
theorem pieceSR_map_ch : ∀ s : List Char, pieceSR (s.map Piece.ch) = (s, []) := by
  intro s
  induction s with
  | nil => rfl
  | cons c cs ih => simp [pieceSR, ih]

/-- The rewritten text of a scan is its leading copied block followed by the
flattened alternation of replacements and copied blocks. -/
theorem outP_pieceSR : ∀ ps : List Piece,
    outP ps = (pieceSR ps).1 ++ flatSR (pieceSR ps).2 := by
  intro ps
  induction ps with
  | nil => rfl
  | cons x ps ih =>
    cases x with
    | ch c => simp only [outP, pieceSR, ih, List.cons_append]
    | rep o caps =>
      simp only [outP, pieceSR, ih, flatSR]
      rw [show replFor caps = replA ++ caps.headD [] ++ replB from rfl]
      simp [List.append_assoc]

/-- Structure of one scan: the leading block is a prefix of the input and contains
no match; every replacement records a word-string identifier; and every residual
block is a substring of the input containing no match (the scan's self-cleanness:
whatever it copies it has checked). -/
theorem scanP_struct (p : Pat) (hp37 : 37 ≤ litWs p.toks) :
    ∀ (f : Nat) (s : List Char), s.length ≤ f →
      (∃ z, s = (pieceSR (scanP p f s)).1 ++ z) ∧
      NoSub p (pieceSR (scanP p f s)).1 ∧
      (∀ pr ∈ (pieceSR (scanP p f s)).2,
        (∀ a ∈ pr.1, isWordCh a = true) ∧
        (∃ x z, s = x ++ pr.2 ++ z) ∧ NoSub p pr.2) := by
  intro f
  induction f with
  | zero =>
    intro s hs
    have hs0 : s = [] := List.length_eq_zero.mp (Nat.le_zero.mp hs)
    subst hs0
    refine ⟨⟨[], rfl⟩, ?_, by intro pr hpr; simp [scanP, pieceSR] at hpr⟩
    intro u c r h hm
    have h0 : u ++ c ++ r = [] := by simpa [scanP, pieceSR] using h.symm
    have hc : c = [] := (List.append_eq_nil.mp (List.append_eq_nil.mp h0).1).2
    exact matchHere_ne_nil hp37 hm hc
  | succ f ih =>
    intro s hs
    cases s with
    | nil =>
      refine ⟨⟨[], rfl⟩, ?_, by intro pr hpr; simp [scanP, pieceSR] at hpr⟩
      intro u c r h hm
      have h0 : u ++ c ++ r = [] := by simpa [scanP, pieceSR] using h.symm
      have hc : c = [] := (List.append_eq_nil.mp (List.append_eq_nil.mp h0).1).2
      exact matchHere_ne_nil hp37 hm hc
    | cons c0 s' =>
      cases hmt : mt p.ci p.toks (c0 :: s') [] with
      | none =>
        have hlen : s'.length ≤ f := by
          simp only [List.length_cons] at hs
          omega
        obtain ⟨⟨z, hz⟩, hb0c, hrepsc⟩ := ih s' hlen
        have hscan : scanP p (f + 1) (c0 :: s') = Piece.ch c0 :: scanP p f s' := by
          simp only [scanP, hmt]
        rw [hscan]
        refine ⟨⟨z, ?_⟩, ?_, ?_⟩
        · simp only [pieceSR, List.cons_append]
          rw [← hz]
        · intro u c r h hm
          simp only [pieceSR] at h
          cases u with
          | nil =>
            cases hc : c with
            | nil => exact matchHere_ne_nil hp37 hm hc
            | cons c1 cm =>
              rw [hc] at h hm
              obtain ⟨caps1, hnd⟩ := hm
              simp only [List.nil_append, List.cons_append] at h
              injection h with h1 h2
              have htext : c0 :: s' = (c1 :: cm) ++ (r ++ z) := by
                rw [hz, h2, h1]
                simp [List.append_assoc]
              have hsome := mt_complete hnd (r ++ z)
              rw [← htext] at hsome
              rw [hmt] at hsome
              simp at hsome
          | cons u0 u' =>
            simp only [List.cons_append] at h
            injection h with h1 h2
            exact hb0c u' c r h2 hm
        · intro pr hpr
          simp only [pieceSR] at hpr
          obtain ⟨hw, ⟨x, z2, hxz⟩, hcl⟩ := hrepsc pr hpr
          exact ⟨hw, ⟨c0 :: x, z2, by rw [hxz]; rfl⟩, hcl⟩
      | some pr0 =>
        obtain ⟨rest, caps⟩ := pr0
        obtain ⟨new, consumed, hcaps0, hcons, hlb⟩ := mt_spec hmt
        have hlt : rest.length < s'.length + 1 := by
          have hlc := congrArg List.length hcons
          simp only [List.length_append, List.length_cons] at hlc
          omega
        have hscan : scanP p (f + 1) (c0 :: s') =
            Piece.rep ((c0 :: s').take (s'.length + 1 - rest.length)) caps ::
              scanP p f rest := by
          simp only [scanP, hmt, if_pos hlt]
        have hrl : rest.length ≤ f := by
          simp only [List.length_cons] at hs
          omega
        obtain ⟨⟨z, hz⟩, hb0r, hrepsr⟩ := ih rest hrl
        rw [hscan]
        refine ⟨⟨c0 :: s', by simp [pieceSR]⟩, ?_, ?_⟩
        · intro u c r h hm
          simp only [pieceSR] at h
          have hc : c = [] := (List.append_eq_nil.mp (List.append_eq_nil.mp h.symm).1).2
          exact matchHere_ne_nil hp37 hm hc
        · intro pr hpr
          simp only [pieceSR] at hpr
          rcases List.mem_cons.mp hpr with hpr | hpr
          · subst hpr
            refine ⟨?_, ⟨consumed, z, ?_⟩, hb0r⟩
            · obtain ⟨con2, hcon2, hnd⟩ := mt_sound hmt
              have hcw : CapsWord caps := ndm_caps hnd (by intro cs hcs; simp at hcs)
              intro a ha
              cases hcaps2 : caps with
              | nil =>
                rw [hcaps2] at ha
                simp at ha
              | cons cc0 ccs =>
                have hcc := hcw cc0 (by rw [hcaps2]; simp)
                rw [hcaps2] at ha
                simp only [List.headD_cons] at ha
                exact hcc.2 a ha
            · show c0 :: s' = consumed ++ (pieceSR (scanP p f rest)).1 ++ z
              calc c0 :: s' = consumed ++ rest := hcons
                _ = consumed ++ ((pieceSR (scanP p f rest)).1 ++ z) := by rw [← hz]
                _ = consumed ++ (pieceSR (scanP p f rest)).1 ++ z := by
                    rw [List.append_assoc]
          · obtain ⟨hw, ⟨x, z2, hxz⟩, hcl⟩ := hrepsr pr hpr
            exact ⟨hw, ⟨consumed ++ x, z2, by
              rw [hcons, hxz]; simp [List.append_assoc]⟩, hcl⟩

/-- A fuel-exhausted scan copies everything and replaces nothing. -/
theorem countP_map_ch : ∀ s : List Char, countP (s.map Piece.ch) = 0 := by
  intro s
  induction s with
  | nil => rfl
  | cons c cs ih => simpa [countP] using ih

/-- On a buffer with no match anywhere the scan replaces nothing. -/
theorem scanP_none (p : Pat) : ∀ (f : Nat) (s : List Char), NoSub p s →
    countP (scanP p f s) = 0 := by
  intro f
  induction f with
  | zero => intro s _; simp [scanP, countP_map_ch]
  | succ f ih =>
    intro s hns
    cases s with
    | nil => simp [scanP, countP]
    | cons c0 s' =>
      cases hmt : mt p.ci p.toks (c0 :: s') [] with
      | none =>
        simp only [scanP, hmt, countP]
        exact ih s' (fun u c r h hm => hns (c0 :: u) c r (by rw [h]; rfl) hm)
      | some pr0 =>
        obtain ⟨rest, caps⟩ := pr0
        obtain ⟨consumed, hcons, hnd⟩ := mt_sound hmt
        exact absurd (⟨caps, hnd⟩ : MatchHere p consumed)
          (hns [] consumed rest (by rw [hcons]; rfl))

/-- If a scan replaces nothing, its output text is its input text. -/
theorem outP_eq_inP : ∀ {ps : List Piece}, countP ps = 0 → outP ps = inP ps := by
  intro ps
  induction ps with
  | nil => intro _; rfl
  | cons x ps ih =>
    intro h
    cases x with
    | ch c =>
      simp only [outP, inP]
      rw [ih (by simpa [countP] using h)]
    | rep o caps => simp [countP] at h

/-- On a buffer with no match, one `findall`/`sub` application is the identity. -/
theorem applyPat_none {p : Pat} {s : List Char} (hns : NoSub p s) :
    applyPat p s = (s, 0) := by
  have h0 := scanP_none p s.length s hns
  simp [applyPat, h0]

/-- The rewritten text of one `findall`/`sub` application is the scan's output. -/
theorem applyPat_fst (p : Pat) (s : List Char) :
    (applyPat p s).1 = outP (scanP p s.length s) := by
  by_cases h : countP (scanP p s.length s) = 0
  · rw [outP_eq_inP h, inP_scanP]
    simp [applyPat, h]
  · simp [applyPat, h]

/-- The fold invariant `Str` is antitone in the pattern set. -/
theorem str_mono {P Q : List Pat} {t : List Char} (h : Str P t)
    (hsub : ∀ p ∈ Q, p ∈ P) : Str Q t := by
  obtain ⟨b0, sr, ht, hv, hcl⟩ := h
  exact ⟨b0, sr, ht, hv, fun p hp => hcl p (hsub p hp)⟩

/-- One pass with a family pattern `q` preserves the invariant and extends it by
`q`: matches of `q` lie inside the old blocks, the scan replaces them and leaves
blocks that are substrings of the old buffer (hence clean for the previous
patterns) and clean for `q` by self-cleanness. -/
theorem str_step {P : List Pat} {t : List Char} {q : Pat} (hq : famPat q)
    (hwfP : ∀ p ∈ P, wfPat p) (h : Str P t) : Str (q :: P) (applyPat q t).1 := by
  obtain ⟨hqw, hq37⟩ := hq
  obtain ⟨b0, sr, ht, hv, hcl⟩ := h
  have hwhole : ∀ p ∈ P, NoSub p t := by
    intro p hp
    rw [ht]
    exact whole_clean (hwfP p hp) hv (hcl p hp).1 (hcl p hp).2
  obtain ⟨⟨z, hz⟩, hb0c, hreps⟩ := scanP_struct q hq37 t.length t (le_refl _)
  rw [applyPat_fst q t, outP_pieceSR]
  refine ⟨(pieceSR (scanP q t.length t)).1, (pieceSR (scanP q t.length t)).2, rfl,
    ?_, ?_⟩
  · intro pr hpr
    exact (hreps pr hpr).1
  · intro p hp
    rcases List.mem_cons.mp hp with rfl | hp
    · exact ⟨hb0c, fun pr hpr => (hreps pr hpr).2.2⟩
    · constructor
      · intro u c r hh hm
        refine hwhole p hp u c (r ++ z) ?_ hm
        rw [hz, hh]
        simp [List.append_assoc]
      · intro pr hpr
        obtain ⟨_, ⟨x, z2, hxz⟩, _⟩ := hreps pr hpr
        intro u c r hh hm
        refine hwhole p hp (x ++ u) c (r ++ z2) ?_ hm
        rw [hxz, hh]
        simp [List.append_assoc]

/-- Unfolding of the fold's rewritten text one pattern at a time. -/
theorem foldPats_cons_fst (q : Pat) (qs : List Pat) (t : List Char) :
    (foldPats (q :: qs) t).1 = (foldPats qs (applyPat q t).1).1 := rfl

/-- Folding a list of family patterns starting from an invariant buffer yields a
buffer satisfying the invariant for all of them. -/
theorem str_fold : ∀ (pats : List Pat) {P : List Pat} {t : List Char},
    (∀ p ∈ pats, famPat p) → (∀ p ∈ P, wfPat p) → Str P t →
    Str (pats ++ P) (foldPats pats t).1 := by
  intro pats
  induction pats with
  | nil =>
    intro P t _ _ h
    simpa [foldPats] using h
  | cons q qs ih =>
    intro P t hfam hwfP h
    rw [foldPats_cons_fst]
    have h1 : Str (q :: P) (applyPat q t).1 :=
      str_step (hfam q (by simp)) hwfP h
    have hwf1 : ∀ p ∈ (q :: P), wfPat p := by
      intro p hp
      rcases List.mem_cons.mp hp with rfl | hp
      · exact (hfam _ (by simp)).1
      · exact hwfP p hp
    have h2 := ih (fun p hp => hfam p (by simp [hp])) hwf1 h1
    refine str_mono h2 ?_
    intro p hp
    simp only [List.cons_append, List.mem_cons, List.mem_append] at hp ⊢
    tauto

/-- A fold over patterns none of which matches anywhere is the identity with zero
replacements. -/
theorem foldPats_none : ∀ (pats : List Pat) (t : List Char),
    (∀ p ∈ pats, NoSub p t) → foldPats pats t = (t, 0) := by
  intro pats
  induction pats with
  | nil => intro t _; rfl
  | cons q qs ih =>
    intro t h
    have h1 : applyPat q t = (t, 0) := applyPat_none (h q (by simp))
    have h2 : foldPats qs t = (t, 0) := ih t (fun p hp => h p (by simp [hp]))
    simp [foldPats, h1, h2]

/-- Idempotence of the fold for any list of family patterns: a second pass over the
output of a first pass changes nothing and counts zero replacements. -/
theorem fold_idem (pats : List Pat) (hfam : ∀ p ∈ pats, famPat p) (t : List Char) :
    foldPats pats (foldPats pats t).1 = ((foldPats pats t).1, 0) := by
  have h0 : Str [] t := ⟨t, [], by simp [flatSR], by simp, by simp⟩
  have h1 : Str (pats ++ []) (foldPats pats t).1 :=
    str_fold pats hfam (by simp) h0
  have h2 : ∀ p ∈ pats, NoSub p (foldPats pats t).1 := by
    intro p hp
    obtain ⟨b0, sr, ht, hv, hcl⟩ := h1
    have hpp : p ∈ pats ++ ([] : List Pat) := by simpa using hp
    rw [ht]
    exact whole_clean (hfam p hp).1 hv (hcl p hpp).1 (hcl p hpp).2
  exact foldPats_none pats _ h2

/-- All thirteen patterns have well-formed token lists. -/
theorem wfToks_all : ∀ p ∈ comprehensivePats ++ OLD_PATTERNS ++ quickPats,
    wfToks p.toks = true := by decide

/-- All thirteen patterns belong to the family: well-formed, starting with
`if\s*\(`, of literal weight at least 37. -/
theorem famPat_all : ∀ p ∈ comprehensivePats ++ OLD_PATTERNS ++ quickPats,
    famPat p := by
  intro p hp
  refine ⟨⟨wfToks_all p hp, ?_⟩, allPats_good p hp⟩
  simp only [comprehensivePats, OLD_PATTERNS, quickPats, List.mem_append,
    List.mem_cons, List.not_mem_nil, or_false] at hp
  rcases hp with hh | hh
  · rcases hh with hh | hh
    · rcases hh with rfl | rfl | rfl | rfl | rfl | rfl <;> exact ⟨_, rfl⟩
    · rcases hh with rfl | rfl | rfl | rfl <;> exact ⟨_, rfl⟩
  · rcases hh with rfl | rfl | rfl <;> exact ⟨_, rfl⟩

/-- Idempotence of the six-pattern fold of `modernize_comprehensive.py`. -/
theorem fold_idem_cp (t : List Char) :
    foldPats comprehensivePats (foldPats comprehensivePats t).1 =
      ((foldPats comprehensivePats t).1, 0) :=
  fold_idem comprehensivePats
    (fun p hp => famPat_all p (List.mem_append_left _ (List.mem_append_left _ hp))) t

/-- Idempotence of the `OLD_PATTERNS` fold of `modernize_exceptions.py`. -/
theorem fold_idem_old (t : List Char) :
    foldPats OLD_PATTERNS (foldPats OLD_PATTERNS t).1 =
      ((foldPats OLD_PATTERNS t).1, 0) :=
  fold_idem OLD_PATTERNS
    (fun p hp => famPat_all p (List.mem_append_left _ (List.mem_append_right _ hp))) t

/-- Idempotence of the three-pattern fold of `quick_modernize.py`. -/
theorem fold_idem_quick (t : List Char) :
    foldPats quickPats (foldPats quickPats t).1 =
      ((foldPats quickPats t).1, 0) :=
  fold_idem quickPats (fun p hp => famPat_all p (List.mem_append_right _ hp)) t

/-- The characters of a packed string. -/
theorem data_mk (l : List Char) : (String.mk l).data = l := rfl

/-- String-level idempotence of `modernize_patterns`. -/
theorem modernize_patterns_idem (content filePath : String) :
    modernize_patterns ((modernize_patterns content filePath).1) filePath =
      ((modernize_patterns content filePath).1, 0) := by
  have h1 : (modernize_patterns content filePath).1 =
      String.mk (foldPats comprehensivePats content.data).1 := by
    rw [modernize_patterns_def]
  rw [h1, modernize_patterns_def]
  rw [data_mk]
  rw [fold_idem_cp]

/-- String-level idempotence of the rewriting core of `modernize_file`. -/
theorem modernizeFileContent_idem (content : String) :
    modernizeFileContent ((modernizeFileContent content).1) =
      ((modernizeFileContent content).1, 0) := by
  have h1 : (modernizeFileContent content).1 =
      String.mk (foldPats OLD_PATTERNS content.data).1 := by
    rw [modernizeFileContent_def]
  rw [h1, modernizeFileContent_def]
  rw [data_mk]
  rw [fold_idem_old]

/-- String-level idempotence of the rewriting core of `quick_modernize.py`. -/
theorem quickContent_idem (content : String) :
    quickContent ((quickContent content).1) = ((quickContent content).1, 0) := by
  have h1 : (quickContent content).1 =
      String.mk (foldPats quickPats content.data).1 := by
    rw [quickContent_def]
  rw [h1, quickContent_def]
  rw [data_mk]
  rw [fold_idem_quick]

/-- A file already containing only the canonical form yields zero matches and is
returned unchanged. -/
theorem canon_unchanged (filePath : String) :
    modernize_patterns ("ArgumentNullException.ThrowIfNull(x);") filePath =
      (("ArgumentNullException.ThrowIfNull(x);"), 0) := rfl

/-- The head capture of a capture list satisfying the invariant is a word string. -/
theorem capsWord_headD {caps : List (List Char)} (h : CapsWord caps) :
    ∀ a ∈ caps.headD [], isWordCh a = true := by
  cases caps with
  | nil =>
    intro a ha
    simp at ha
  | cons c0 cs =>
    intro a ha
    simp only [List.headD_cons] at ha
    exact (h c0 (by simp)).2 a ha

/-- The snapshot relation is reflexive: copy everything, substitute nothing. -/
theorem snap_refl (F : List Pat) : ∀ t : List Char, Snap F t t := by
  intro t
  induction t with
  | nil => exact Snap.nil
  | cons x t ih => exact Snap.copy x ih

/-- One scan is a snapshot derivation over its own input. -/
theorem scanP_snap (q : Pat) : ∀ (f : Nat) (s : List Char),
    Snap [q] s (outP (scanP q f s)) := by
  intro f
  induction f with
  | zero =>
    intro s
    have h0 : countP (scanP q 0 s) = 0 := by simp [scanP, countP_map_ch]
    rw [outP_eq_inP h0, inP_scanP]
    exact snap_refl _ s
  | succ f ih =>
    intro s
    cases s with
    | nil =>
      simp only [scanP, outP]
      exact Snap.nil
    | cons c0 s' =>
      cases hmt : mt q.ci q.toks (c0 :: s') [] with
      | none =>
        have hscan : scanP q (f + 1) (c0 :: s') = Piece.ch c0 :: scanP q f s' := by
          simp only [scanP, hmt]
        rw [hscan]
        exact Snap.copy c0 (ih s')
      | some pr0 =>
        obtain ⟨rest, caps⟩ := pr0
        by_cases hlt : rest.length < s'.length + 1
        · have hscan : scanP q (f + 1) (c0 :: s') =
              Piece.rep ((c0 :: s').take (s'.length + 1 - rest.length)) caps ::
                scanP q f rest := by
            simp only [scanP, hmt, if_pos hlt]
          rw [hscan]
          simp only [outP]
          obtain ⟨consumed, hcons, hnd⟩ := mt_sound hmt
          rw [hcons]
          exact Snap.subst q consumed caps (by simp) hnd (ih rest)
        · have hscan : scanP q (f + 1) (c0 :: s') = Piece.ch c0 :: scanP q f s' := by
            simp only [scanP, hmt, if_neg hlt]
          rw [hscan]
          exact Snap.copy c0 (ih s')

/-- One `findall`/`sub` application is a snapshot derivation over its input. -/
theorem applyPat_snap (q : Pat) (t : List Char) : Snap [q] t (applyPat q t).1 := by
  rw [applyPat_fst]
  exact scanP_snap q t.length t

/-- Inversion of the snapshot relation. -/
theorem snap_inv {F : List Pat} : ∀ {t c : List Char}, Snap F t c →
    (t = [] ∧ c = []) ∨
    (∃ x a b, t = x :: a ∧ c = x :: b ∧ Snap F a b) ∨
    (∃ p ∈ F, ∃ m caps a b, t = m ++ a ∧ c = replFor caps ++ b ∧
      NdM p.ci p.toks m [] caps ∧ Snap F a b) := by
  intro t c h
  cases h with
  | nil => exact Or.inl ⟨rfl, rfl⟩
  | copy x hs => exact Or.inr (Or.inl ⟨x, _, _, rfl, rfl, hs⟩)
  | subst p m caps hp hnd hs =>
    exact Or.inr (Or.inr ⟨p, hp, m, caps, _, _, rfl, rfl, hnd, hs⟩)

/-- A non-trivial pattern has no empty match. -/
theorem no_empty_match {p : Pat} (h37 : 37 ≤ litWs p.toks) {caps : List (List Char)}
    (h : NdM p.ci p.toks [] [] caps) : False := by
  have hl := ndm_len h
  simp only [List.length_nil] at hl
  omega

/-- A snapshot derivation of a non-trivial pattern over the empty text produces the
empty text. -/
theorem snap_q_nil {q : Pat} (hq37 : 37 ≤ litWs q.toks) {c : List Char}
    (h : Snap [q] [] c) : c = [] := by
  rcases snap_inv h with ⟨_, hc⟩ | ⟨x0, a0, b0, hta, _, _⟩ |
    ⟨p, hp, m, caps, a0, b0, hta, _, hnd, _⟩
  · exact hc
  · exact absurd hta (by simp)
  · have hm0 : m = [] := (List.append_eq_nil.mp hta.symm).1
    have hpq : p = q := List.mem_singleton.mp hp
    rw [hm0, hpq] at hnd
    exact (no_empty_match hq37 hnd).elim

/-- Splitting a snapshot derivation along the tail of a match of `q`: since no match
can cross into a replacement, the first `|m₀|` characters of the derived text are
copies, and the derivation continues after them. -/
theorem snap_split {F : List Pat} {q : Pat} (hq : wfPat q) {mfull : List Char}
    {qcaps : List (List Char)} (hnd : NdM q.ci q.toks mfull [] qcaps) :
    ∀ {a₀ b₀ : List Char}, Snap F a₀ b₀ → ∀ pre m₀ b₁, b₀ = m₀ ++ b₁ →
    mfull = pre ++ m₀ → pre ≠ [] →
    ∃ a₂, a₀ = m₀ ++ a₂ ∧ Snap F a₂ b₁ := by
  intro a₀ b₀ h
  induction h with
  | nil =>
    intro pre m₀ b₁ hb hm hpre
    obtain ⟨hm0, hb1⟩ := List.append_eq_nil.mp hb.symm
    exact ⟨[], by simp [hm0], by rw [hb1]; exact Snap.nil⟩
  | @copy x a b hs ih =>
    intro pre m₀ b₁ hb hm hpre
    cases m₀ with
    | nil =>
      simp only [List.nil_append] at hb
      exact ⟨x :: a, by simp, by rw [← hb]; exact Snap.copy x hs⟩
    | cons y m₀' =>
      simp only [List.cons_append] at hb
      injection hb with h1 h2
      obtain ⟨a₂, ha, hs₂⟩ := ih (pre ++ [y]) m₀' b₁ h2
        (by rw [hm]; simp) (by simp)
      exact ⟨a₂, by rw [h1, ha]; rfl, hs₂⟩
  | @subst p m caps a b hp hnd' hs ih =>
    intro pre m₀ b₁ hb hm hpre
    cases m₀ with
    | nil =>
      simp only [List.nil_append] at hb
      exact ⟨m ++ a, by simp, by rw [← hb]; exact Snap.subst p m caps hp hnd' hs⟩
    | cons y m₀' =>
      exfalso
      have hexp : replFor caps ++ b =
          replA ++ (caps.headD [] ++ ((replB : List Char) ++ b)) := by
        rw [show replFor caps = replA ++ caps.headD [] ++ replB from rfl]
        simp [List.append_assoc]
      have hRW : replA ++ (caps.headD [] ++ ((replB : List Char) ++ b)) =
          (y :: m₀') ++ b₁ := hexp.symm.trans hb
      exact ndm_no_cross hnd hq.1 (by intro cs hcs; simp at hcs) pre (y :: m₀')
        (caps.headD [] ++ ((replB : List Char) ++ b)) b₁ hm (by simp) hRW

/-- A snapshot derivation of `q` over a text starting with a whole replacement
occurrence copies the occurrence: no match of `q` can start inside it. -/
theorem snap_copy_repl {q : Pat} (hq : wfPat q) {v : List Char}
    (hv : ∀ a ∈ v, isWordCh a = true) :
    ∀ (x w : List Char) {y c : List Char}, replA ++ v ++ replB = w ++ x →
    Snap [q] (x ++ y) c → ∃ c₀, c = x ++ c₀ ∧ Snap [q] y c₀ := by
  intro x
  induction x with
  | nil =>
    intro w y c _ h
    exact ⟨c, rfl, by simpa using h⟩
  | cons d x' ih =>
    intro w y c hR h
    rcases snap_inv h with ⟨hnil, _⟩ | ⟨x0, a, b, hta, htc, hs⟩ |
      ⟨p, hp, m, caps, a, b, hta, htc, hnd, hs⟩
    · simp at hnil
    · simp only [List.cons_append] at hta
      injection hta with h1 h2
      rw [← h2] at hs
      obtain ⟨c₀, hc, hs'⟩ := ih (w ++ [d]) (by rw [hR]; simp) hs
      refine ⟨c₀, ?_, hs'⟩
      rw [htc, ← h1, hc, List.cons_append]
    · exfalso
      have hpq : p = q := List.mem_singleton.mp hp
      rw [hpq] at hnd
      exact no_start_inside hq hv w (d :: x') hR (by simp) m y a
        (by rw [← hta]) ⟨caps, hnd⟩

/-- Composing a snapshot derivation with one further scan of a family pattern
belonging to the same rule set yields a snapshot derivation over the original:
the scan's matches lie entirely in copied (original) text. -/
theorem snap_compose {F : List Pat} {q : Pat} (hqF : q ∈ F) (hq : wfPat q)
    (hq37 : 37 ≤ litWs q.toks) :
    ∀ (n : Nat) {a b c : List Char}, b.length ≤ n → Snap F a b → Snap [q] b c →
    Snap F a c := by
  intro n
  induction n with
  | zero =>
    intro a b c hb h1 h2
    have hb0 : b = [] := List.length_eq_zero.mp (Nat.le_zero.mp hb)
    subst hb0
    rw [snap_q_nil hq37 h2]
    exact h1
  | succ n ihn =>
    intro a b c hb h1 h2
    rcases snap_inv h1 with ⟨ha, hbnil⟩ | ⟨x0, a0, b0, hta, htb, hs⟩ |
      ⟨p, hp, m, caps, a0, b0, hta, htb, hnd, hs⟩
    · subst hbnil
      rw [snap_q_nil hq37 h2]
      exact h1
    · subst hta
      subst htb
      rcases snap_inv h2 with ⟨hnil, _⟩ | ⟨x1, a1, b1, hta2, htc2, hs2⟩ |
        ⟨p, hp, m, caps, a1, b1, hta2, htc2, hnd2, hs2⟩
      · simp at hnil
      · injection hta2 with he1 he2
        rw [← he2] at hs2
        have hb0n : b0.length ≤ n := by
          simp only [List.length_cons] at hb
          omega
        rw [htc2, ← he1]
        exact Snap.copy x0 (ihn hb0n hs hs2)
      · have hpq : p = q := List.mem_singleton.mp hp
        rw [hpq] at hnd2
        cases m with
        | nil => exact (no_empty_match hq37 hnd2).elim
        | cons y m₀ =>
          simp only [List.cons_append] at hta2
          injection hta2 with he1 he2
          obtain ⟨a₂, ha₂, hs₂⟩ := snap_split hq hnd2 hs [y] m₀ a1 he2 rfl (by simp)
          have hlen1 : a1.length ≤ n := by
            have hl2 := congrArg List.length he2
            simp only [List.length_cons] at hb
            simp only [List.length_append] at hl2
            omega
          have hcomp := ihn hlen1 hs₂ hs2
          rw [htc2, he1, ha₂]
          exact Snap.subst q (y :: m₀) caps hqF hnd2 hcomp
    · subst hta
      subst htb
      have hw : ∀ a ∈ caps.headD [], isWordCh a = true :=
        capsWord_headD (ndm_caps hnd (by intro cs hcs; simp at hcs))
      have hrepl : replFor caps = replA ++ caps.headD [] ++ replB := rfl
      rw [hrepl] at h2
      obtain ⟨c₀, hc, hs2⟩ := snap_copy_repl hq hw
        (replA ++ caps.headD [] ++ replB) [] (by simp) h2
      have hlen : b0.length ≤ n := by
        simp only [List.length_append] at hb
        have hrl : (replFor caps).length = (caps.headD []).length + 36 :=
          replFor_length caps
        omega
      rw [hc, ← hrepl]
      exact Snap.subst p m caps hp hnd (ihn hlen hs hs2)

/-- Folding family patterns of a rule set on top of a snapshot derivation yields a
snapshot derivation: the whole sequential fold is one snapshot pass over the
original content. -/
theorem snap_fold (F : List Pat) : ∀ (pats : List Pat), (∀ p ∈ pats, p ∈ F) →
    (∀ p ∈ pats, famPat p) → ∀ {a t : List Char}, Snap F a t →
    Snap F a (foldPats pats t).1 := by
  intro pats
  induction pats with
  | nil =>
    intro _ _ a t h
    simpa [foldPats] using h
  | cons q qs ih =>
    intro hmem hfam a t h
    rw [foldPats_cons_fst]
    refine ih (fun p hp => hmem p (by simp [hp])) (fun p hp => hfam p (by simp [hp])) ?_
    exact snap_compose (hmem q (by simp)) (hfam q (by simp)).1
      (hfam q (by simp)).2 t.length (le_refl _) h (applyPat_snap q t)

/-- `modernize_patterns` is one snapshot pass: its output is derived from the
original content by substituting non-overlapping spans matched on the original. -/
theorem mp_snap (content filePath : String) :
    Snap comprehensivePats content.data
      ((modernize_patterns content filePath).1).data := by
  have h1 : ((modernize_patterns content filePath).1).data =
      (foldPats comprehensivePats content.data).1 := by
    rw [modernize_patterns_def]
  rw [h1]
  exact snap_fold comprehensivePats comprehensivePats (fun p hp => hp)
    (fun p hp => famPat_all p (List.mem_append_left _ (List.mem_append_left _ hp)))
    (snap_refl _ content.data)

/-- The `OLD_PATTERNS` core of `modernize_file` is one snapshot pass. -/
theorem mf_snap (content : String) :
    Snap OLD_PATTERNS content.data ((modernizeFileContent content).1).data := by
  have h1 : ((modernizeFileContent content).1).data =
      (foldPats OLD_PATTERNS content.data).1 := by
    rw [modernizeFileContent_def]
  rw [h1]
  exact snap_fold OLD_PATTERNS OLD_PATTERNS (fun p hp => hp)
    (fun p hp => famPat_all p (List.mem_append_left _ (List.mem_append_right _ hp)))
    (snap_refl _ content.data)

/-- The rewriter of `quick_modernize.py` is one snapshot pass. -/
theorem qc_snap (content : String) :
    Snap quickPats content.data ((quickContent content).1).data := by
  have h1 : ((quickContent content).1).data =
      (foldPats quickPats content.data).1 := by
    rw [quickContent_def]
  rw [h1]
  exact snap_fold quickPats quickPats (fun p hp => hp)
    (fun p hp => famPat_all p (List.mem_append_right _ hp))
    (snap_refl _ content.data)

/-- Any snapshot derivation yields an order-preserving decomposition: the original
and the derived text interleave the *same* untouched blocks, in the same order,
around the replaced spans — the original is `b₀ ++ m₁ ++ b₁ ++ … ++ mₖ ++ bₖ` and
the output is `b₀ ++ r₁ ++ b₁ ++ … ++ rₖ ++ bₖ`, each `mᵢ` a rule match on the
original and each `rᵢ` its canonical replacement. -/
theorem snap_decomp {F : List Pat} : ∀ {a c : List Char}, Snap F a c →
    ∃ b0 segs, a = b0 ++ flatMB segs ∧ c = b0 ++ flatRB segs ∧
      SpansMatched F segs := by
  intro a c h
  induction h with
  | nil =>
    exact ⟨[], [], rfl, rfl, by intro t ht; simp at ht⟩
  | @copy x a b hs ih =>
    obtain ⟨b0, segs, ha, hc, hm⟩ := ih
    exact ⟨x :: b0, segs, by rw [ha, List.cons_append], by rw [hc, List.cons_append],
      hm⟩
  | @subst p m caps a b hp hnd hs ih =>
    obtain ⟨b0, segs, ha, hc, hm⟩ := ih
    refine ⟨[], (m, replFor caps, b0) :: segs, ?_, ?_, ?_⟩
    · rw [List.nil_append]
      show m ++ a = m ++ b0 ++ flatMB segs
      rw [ha, List.append_assoc]
    · rw [List.nil_append]
      show replFor caps ++ b = replFor caps ++ b0 ++ flatRB segs
      rw [hc, List.append_assoc]
    · intro t ht
      rcases List.mem_cons.mp ht with rfl | ht
      · exact ⟨p, hp, caps, hnd, rfl⟩
      · exact hm t ht

-- From here on `foldPats` is only handled through the lemmas above, so it is made
-- irreducible: this stops definitional unfolding of the (symbolic) pattern fold
-- during unification, which cannot reduce anyway on an unknown content string.
attribute [irreducible] foldPats

/-- C7: order preservation outside matched spans — for every input content, the
original and the rewritten content decompose into the *same* untouched blocks, in
the same order, interleaved with the replaced spans: the original content is
`b₀ ++ m₁ ++ b₁ ++ … ++ mₖ ++ bₖ` and the output is
`b₀ ++ r₁ ++ b₁ ++ … ++ rₖ ++ bₖ` with identical untouched blocks `bᵢ`, so
concatenating the untouched spans of the new content reproduces exactly the
corresponding spans of the original, in order.  Each replaced span `mᵢ` is a
genuine match of one of the rules on the original text (`NdM`) and each `rᵢ` is
the canonical replacement built from that match's captures, so the decomposition
is not trivially satisfiable.  Proven for `modernize_patterns` of
`modernize_comprehensive.py`, for the rewriter of `quick_modernize.py`, and for
the `OLD_PATTERNS` core of `modernize_exceptions.py`. -/
theorem C7_order_preservation :
    (∀ content filePath : String, ∃ b0 segs,
      content.data = b0 ++ flatMB segs ∧
      ((modernize_patterns content filePath).1).data = b0 ++ flatRB segs ∧
      SpansMatched comprehensivePats segs) ∧
    (∀ content : String, ∃ b0 segs,
      content.data = b0 ++ flatMB segs ∧
      ((quickContent content).1).data = b0 ++ flatRB segs ∧
      SpansMatched quickPats segs) ∧
    ∀ content : String, ∃ b0 segs,
      content.data = b0 ++ flatMB segs ∧
      ((modernizeFileContent content).1).data = b0 ++ flatRB segs ∧
      SpansMatched OLD_PATTERNS segs :=
  ⟨fun content filePath => snap_decomp (mp_snap content filePath),
   fun content => snap_decomp (qc_snap content),
   fun content => snap_decomp (mf_snap content)⟩

/-- C10: the changed flag agrees with the replacement count — `modernize_patterns`
returns the input unchanged exactly when it reports zero replacements; and
`process_file` records the file in `changes_by_file` with its per-file count, and
counts it as changed, exactly when at least one replacement was made. -/
theorem C10_changed_iff_replacements (content path : String) (dryRun : Bool) :
    ((modernize_patterns content path).1 = content ↔
        (modernize_patterns content path).2 = 0) ∧
    (process_file dryRun path content).replInc = (modernize_patterns content path).2 ∧
    ((process_file dryRun path content).recorded =
        if 0 < (modernize_patterns content path).2
        then some (modernize_patterns content path).2 else none) ∧
    ((process_file dryRun path content).changedInc =
        if 0 < (modernize_patterns content path).2 then 1 else 0) := by
  have hgood : ∀ p ∈ comprehensivePats, 37 ≤ litWs p.toks := fun p hp =>
    allPats_good p (List.mem_append_left _ (List.mem_append_left _ hp))
  have hmain := foldPats_cases comprehensivePats hgood content.data
  have hpf : process_file dryRun path content =
      if 0 < (foldPats comprehensivePats content.data).2 then
        { processedInc := 1, changedInc := 1,
          replInc := (foldPats comprehensivePats content.data).2,
          recorded := some (foldPats comprehensivePats content.data).2,
          writes := if dryRun then [] else
            writeBackOps path (String.mk (foldPats comprehensivePats content.data).1),
          returned := true }
      else
        { processedInc := 1, changedInc := 0, replInc := 0, recorded := none,
          writes := [], returned := false } := by
    simp only [process_file, modernize_patterns_def, gt_iff_lt]
  simp only [modernize_patterns_def]
  refine ⟨⟨?_, ?_⟩, ?_, ?_, ?_⟩
  · intro h
    rcases hmain with ⟨h2, _⟩ | ⟨_, h1⟩
    · exact h2
    · exfalso
      have hd : (foldPats comprehensivePats content.data).1 = content.data :=
        congrArg String.data h
      rw [hd] at h1
      omega
  · intro h
    rcases hmain with ⟨_, h1⟩ | ⟨h2, _⟩
    · rw [h1]
    · omega
  · by_cases h : 0 < (foldPats comprehensivePats content.data).2
    · rw [hpf, if_pos h]
    · rw [hpf, if_neg h]
      show 0 = (foldPats comprehensivePats content.data).2
      omega
  · by_cases h : 0 < (foldPats comprehensivePats content.data).2
    · rw [hpf, if_pos h, if_pos h]
    · rw [hpf, if_neg h, if_neg h]
  · by_cases h : 0 < (foldPats comprehensivePats content.data).2
    · rw [hpf, if_pos h, if_pos h]
    · rw [hpf, if_neg h, if_neg h]

/-- C1: idempotence of the rewrite — for every input content, applying the
modernization a second time to the output of the first application produces zero
further replacements and returns the output unchanged; this holds for
`modernize_patterns` of `modernize_comprehensive.py`, for the `OLD_PATTERNS` core of
`modernize_file` in `modernize_exceptions.py`, and for the three-pattern rewriter of
`quick_modernize.py`; in particular a content consisting of the canonical form
`ArgumentNullException.ThrowIfNull(x);` yields zero matches and is returned
unchanged. -/
theorem C1_idempotence :
    (∀ content filePath : String,
      modernize_patterns ((modernize_patterns content filePath).1) filePath =
        ((modernize_patterns content filePath).1, 0)) ∧
    (∀ content : String,
      modernizeFileContent ((modernizeFileContent content).1) =
        ((modernizeFileContent content).1, 0)) ∧
    (∀ content : String,
      quickContent ((quickContent content).1) = ((quickContent content).1, 0)) ∧
    (∀ filePath : String,
      modernize_patterns ("ArgumentNullException.ThrowIfNull(x);") filePath =
        (("ArgumentNullException.ThrowIfNull(x);"), 0)) :=
  ⟨modernize_patterns_idem, modernizeFileContent_idem, quickContent_idem,
    canon_unchanged⟩

/-- C2: snapshot equivalence — within a single application of the rule set to one
content string, every rule's matched span is text of the original input content
(no rule is triggered by text introduced by another rule's replacement in the same
call), and the result equals that of the snapshot algorithm `Snap`, defined from
the specification's words, which collects matches on the original content and
applies a non-overlapping subset of them in one left-to-right pass.  This holds for
the six-pattern call of `modernize_comprehensive.py`, the `OLD_PATTERNS` call of
`modernize_exceptions.py`, and the rewriter of `quick_modernize.py`. -/
theorem C2_snapshot_equivalence :
    (∀ content filePath : String,
      Snap comprehensivePats content.data
        ((modernize_patterns content filePath).1).data) ∧
    (∀ content : String,
      Snap OLD_PATTERNS content.data ((modernizeFileContent content).1).data) ∧
    (∀ content : String,
      Snap quickPats content.data ((quickContent content).1).data) :=
  ⟨mp_snap, mf_snap, qc_snap⟩

end Modernize
